import Mathlib

/-!
Clarity-Care: the plain-language translator (`src/translator.js`).

A shallow embedding of the text pipeline of `translator.js` and theorems about it.

Modelling conventions:

* A JavaScript string is a `List Char` (`Str`).  None of the patterns of the source
  distinguishes a character outside the Basic Multilingual Plane from any other
  character that is neither a word character nor white space, so one `Char` per
  code point behaves like the two UTF-16 code units JavaScript sees.
* A regular expression of the source is a value of `Re`; `Re.lens` lists the lengths
  of all matches of a pattern at one position in the priority order of a backtracking
  matcher (alternatives left to right, quantifiers greedy), so its head is the match
  JavaScript finds there.  Only the constructs the source uses are modelled, and no
  pattern of the source has a back-reference or a replacement string with `$`.
* The flag `i` (without `u`) compares characters after `toUpperCase`, but never maps
  a character above U+007F to one below; for the ASCII patterns of the source this is
  comparison after ASCII upper-casing (`Char.toUpper`).
* `renderOutput` is asynchronous and writes to the page; here it is run to completion,
  with what the remote call comes to as an argument, and it returns the cells it
  leaves.  The audience and the tone are the keys of `AUDIENCE_WRAP` and `TONE_HINT`;
  the body of an answer is any JSON value, and a `TypeError` thrown inside `try` leads
  to the `catch` block; `innerHTML` is kept as the string written to it.
* The reading ease is computed as the source does, in double precision, by exact
  integer arithmetic on significand and exponent.
-/

namespace ClarityCare

/-- A JavaScript string, as the list of its characters. -/
abbrev Str := List Char

/-! ## Character classes -/

/-- The class `\w`: `[A-Za-z0-9_]`. -/
def isWordChar (c : Char) : Bool := c.isAlphanum || c == '_'

/-- The class `\s`, which is also the set of characters `String.prototype.trim` strips:
the white space and line terminator code points of ECMAScript. -/
def isSpace (c : Char) : Bool :=
  let n := c.toNat
  n == 0x20 || (0x09 ≤ n && n ≤ 0x0D) || n == 0xA0 || n == 0x1680 ||
  (0x2000 ≤ n && n ≤ 0x200A) || n == 0x2028 || n == 0x2029 || n == 0x202F ||
  n == 0x205F || n == 0x3000 || n == 0xFEFF

/-- Character comparison of the matcher: after upper-casing when the flag `i` is set. -/
def chEq (ic : Bool) (p c : Char) : Bool :=
  if ic then p.toUpper == c.toUpper else p == c

/-- Does the literal `l` match at the start of `s`? -/
def litPrefix (ic : Bool) : Str → Str → Bool
  | [], _ => true
  | _ :: _, [] => false
  | p :: ps, c :: cs => chEq ic p c && litPrefix ic ps cs

/-- Length of the longest prefix of `s` whose characters satisfy `p`, at most `hi` when a
bound is given. -/
def run (p : Char → Bool) : Option Nat → Str → Nat
  | some 0, _ => 0
  | _, [] => 0
  | hi, c :: cs => if p c then run p (hi.map Nat.pred) cs + 1 else 0

/-! ## Regular expressions -/

/-- The regular-expression constructs used in `translator.js`. -/
inductive Re where
  /-- a literal string -/
  | str (l : Str)
  /-- a character class, given by its predicate -/
  | cls (p : Char → Bool)
  /-- concatenation -/
  | seq (a b : Re)
  /-- alternation `a|b` -/
  | alt (a b : Re)
  /-- greedy `a?` -/
  | opt (a : Re)
  /-- greedy bounded or unbounded repetition `[p]{lo,hi}` of a class -/
  | rep (p : Char → Bool) (lo : Nat) (hi : Option Nat)
  /-- the assertion `\b` -/
  | wordB
  /-- the assertion `^` (no flag `m`) -/
  | bos
  /-- the assertion `$` (no flag `m`) -/
  | eos

/-- Is the character next to a position a word character?  `none` is a string end. -/
def isWordO : Option Char → Bool
  | none => false
  | some c => isWordChar c

/-- The character before position `n` of `s`, where `prev` is the one before `s`. -/
def prevAt (prev : Option Char) (s : Str) : Nat → Option Char
  | 0 => prev
  | n + 1 => s.get? n

/-- The lengths of the matches of a pattern at the start of `s`, `prev` being the
character before it, in the order a backtracking matcher tries them. -/
def Re.lens (ic : Bool) : Re → Option Char → Str → List Nat
  | .str l, _, s => if litPrefix ic l s then [l.length] else []
  | .cls _, _, [] => []
  | .cls p, _, c :: _ => if p c then [1] else []
  | .seq a b, prev, s =>
      (a.lens ic prev s).flatMap fun n => (b.lens ic (prevAt prev s n) (s.drop n)).map (n + ·)
  | .alt a b, prev, s => a.lens ic prev s ++ b.lens ic prev s
  | .opt a, prev, s => a.lens ic prev s ++ [0]
  | .rep p lo hi, _, s => ((List.range (run p hi s + 1)).filter (lo ≤ ·)).reverse
  | .wordB, prev, s => if isWordO prev != isWordO s.head? then [0] else []
  | .bos, prev, _ => if prev.isNone then [0] else []
  | .eos, _, s => if s.isEmpty then [0] else []

/-- A compiled pattern: the expression and its flag `i`. -/
structure RegExp where
  /-- the expression -/
  re : Re
  /-- the flag `i` -/
  ignoreCase : Bool

/-- The match at one position: the length of the first match in priority order. -/
def RegExp.matchAt (r : RegExp) (prev : Option Char) (s : Str) : Option Nat :=
  (r.re.lens r.ignoreCase prev s).head?

/-- One piece of a string scanned with a global pattern. -/
inductive Seg where
  /-- a character no match covers -/
  | raw (c : Char)
  /-- a match -/
  | hit (m : Str)

/-- The scan of a global (`g`) pattern over a string: after a match the search resumes
at its end, after an empty match one character later.  `skip` counts the characters
of the current match still to be passed. -/
def RegExp.scan (r : RegExp) : Option Char → Str → Nat → List Seg
  | prev, [], _ => match r.matchAt prev [] with
      | some _ => [.hit []]
      | none => []
  | _, c :: cs, k + 1 => r.scan (some c) cs k
  | prev, c :: cs, 0 => match r.matchAt prev (c :: cs) with
      | none => .raw c :: r.scan (some c) cs 0
      | some 0 => .hit [] :: .raw c :: r.scan (some c) cs 0
      | some (n + 1) => .hit ((c :: cs).take (n + 1)) :: r.scan (some c) cs n

/-- `s.replace(r, f)` for a global pattern `r` and a replacement function `f`. -/
def replaceAllWith (r : RegExp) (f : Str → Str) (s : Str) : Str :=
  (r.scan none s 0).flatMap fun
    | .raw c => [c]
    | .hit m => f m

/-- `s.replace(r, repl)` for a global pattern `r` and a replacement string without `$`. -/
def replaceAll (r : RegExp) (repl : Str) (s : Str) : Str :=
  replaceAllWith r (fun _ => repl) s

/-- `s.match(r) || []` for a global pattern `r`: the matches, in order. -/
def matchAll (r : RegExp) (s : Str) : List Str :=
  (r.scan none s 0).filterMap fun
    | .raw _ => none
    | .hit m => some m

/-- `s.split(r)` for a pattern `r` that matches no empty string: the pieces between the
matches. -/
def split (r : RegExp) (s : Str) : List Str :=
  (r.scan none s 0).foldr
    (fun seg acc => match seg, acc with
      | .raw c, p :: ps => (c :: p) :: ps
      | .raw c, [] => [[c]]
      | .hit _, acc => [] :: acc)
    [[]]

/-- Search of `r.test(s)` from a position on. -/
def RegExp.testFrom (r : RegExp) : Option Char → Str → Bool
  | prev, [] => (r.matchAt prev []).isSome
  | prev, c :: cs => (r.matchAt prev (c :: cs)).isSome || r.testFrom (some c) cs

/-- `r.test(s)` for a pattern without the flag `g`. -/
def RegExp.test (r : RegExp) (s : Str) : Bool := r.testFrom none s

/-- `s.replace(r, repl)` for a pattern without the flag `g`, from a position on: the
leftmost match is replaced. -/
def replaceFirstFrom (r : RegExp) (repl : Str) : Option Char → Str → Str
  | prev, [] => match r.matchAt prev [] with
      | some _ => repl
      | none => []
  | prev, c :: cs => match r.matchAt prev (c :: cs) with
      | some n => repl ++ (c :: cs).drop n
      | none => c :: replaceFirstFrom r repl (some c) cs

/-- `s.replace(r, repl)` for a pattern without the flag `g`. -/
def replaceFirst (r : RegExp) (repl : Str) (s : Str) : Str :=
  replaceFirstFrom r repl none s

/-- `s.trim()`. -/
def trim (s : Str) : Str :=
  ((s.dropWhile isSpace).reverse.dropWhile isSpace).reverse

/-! ## The tables of `translator.js` -/

/-- The pattern of a literal, as `/htn/gi`. -/
def lit (s : String) : Re := .str s.toList

/-- The table `REPLACEMENTS`: the patterns (all with flags `gi`) and their replacements,
in the order of the source. -/
def REPLACEMENTS : List (Re × String) := [
  (.alt (.seq (lit "pt") .wordB) (.seq (lit "patient") .wordB), "the patient"),
  (.seq (.alt (lit "hx") (lit "history")) (lit " of"), "history of"),
  (lit "htn", "high blood pressure"),
  (.alt (lit "dm2") (lit "t2dm"), "type 2 diabetes"),
  (lit "dyspnea", "shortness of breath"),
  (lit "sob", "shortness of breath"),
  (lit "echo", "heart ultrasound"),
  (lit "acei", "blood pressure medicine"),
  (.alt (lit "f/u")
     (.seq (lit "follow") (.seq (.opt (.cls fun c => c == '-' || c == ' ')) (lit "up"))),
   "follow-up appointment"),
  (lit "prn", "as needed"),
  (lit "bid", "twice a day"),
  (lit "qd", "once a day"),
  (lit "qhs", "at bedtime"),
  (lit "dx", "diagnosis"),
  (lit "rx", "prescription"),
  (.seq (lit "lab") (.opt (lit "s")), "blood tests"),
  (lit "stat", "right away"),
  (lit "w/", "with"),
  (lit "c/", "with"),
  (lit "r/o", "rule out"),
  (lit "neg", "negative"),
  (lit "pos", "positive"),
  (lit "ed", "emergency department"),
  (lit "er", "emergency room"),
  (lit "bp", "blood pressure"),
  (lit "hr", "heart rate")
]

/-- The step of the loop of `simplify`: `result = result.replace(pattern, repl)`. -/
def applyRule (result : Str) (rule : Re × String) : Str :=
  replaceAll ⟨rule.1, true⟩ rule.2.toList result

/-- The pattern `/\s+/g`. -/
def spaces : RegExp := ⟨.rep isSpace 1 none, false⟩

/-- The function `simplify`. -/
def simplify (text : Str) : Str :=
  let result := REPLACEMENTS.foldl applyRule text
  trim (replaceAll spaces " ".toList result)

/-- The table `HIGHLIGHT_TERMS`, in the order of the source. -/
def HIGHLIGHT_TERMS : List String := [
  "high blood pressure",
  "type 2 diabetes",
  "shortness of breath",
  "heart ultrasound",
  "blood pressure medicine",
  "follow-up appointment",
  "blood tests",
  "emergency department",
  "emergency room",
  "blood pressure",
  "heart rate"
]

/-- The keys of `AUDIENCE_WRAP`, the values the audience selector offers. -/
inductive Audience where
  | adult | teen | caregiver | esl
  deriving DecidableEq, Repr

/-- The keys of `TONE_HINT`, the values the tone selector offers. -/
inductive Tone where
  | warm | direct | coach
  deriving DecidableEq, Repr

/-- The table `AUDIENCE_WRAP`. -/
def AUDIENCE_WRAP : Audience → String
  | .adult => "Here is a clear explanation:"
  | .teen => "Here is a simpler, teen-friendly explanation:"
  | .caregiver => "Here is a clear explanation for family or caregivers:"
  | .esl => "Here is a plain-English explanation (short sentences):"

/-- The table `TONE_HINT`. -/
def TONE_HINT : Tone → String
  | .warm => "You are not alone. This is common and treatable."
  | .direct => "Key points and next steps:"
  | .coach => "Here is what you can do next:"

/-! ## The functions of `translator.js` -/

/-- The function `escapeHtml`: five global replacements, in the order of the source. -/
def escapeHtml (str : Str) : Str :=
  let s1 := replaceAll ⟨lit "&", false⟩ "&amp;".toList str
  let s2 := replaceAll ⟨lit "<", false⟩ "&lt;".toList s1
  let s3 := replaceAll ⟨lit ">", false⟩ "&gt;".toList s2
  let s4 := replaceAll ⟨lit "\"", false⟩ "&quot;".toList s3
  replaceAll ⟨lit "'", false⟩ "&#39;".toList s4

/-- The pattern of one highlight term, `new RegExp("\\b" + term + "\\b", "gi")`; no term
has a character that is special in a pattern. -/
def termPattern (term : String) : RegExp :=
  ⟨.seq .wordB (.seq (lit term) .wordB), true⟩

/-- The step of the loop of `highlightTerms`: every match is wrapped in a `mark` tag. -/
def markTerm (html : Str) (term : String) : Str :=
  replaceAllWith (termPattern term) (fun m => "<mark>".toList ++ m ++ "</mark>".toList) html

/-- The function `highlightTerms`. -/
def highlightTerms (text : Str) : Str :=
  HIGHLIGHT_TERMS.foldl markTerm (escapeHtml text)

/-- The class `[aeiouy]`. -/
def isVowelY (c : Char) : Bool :=
  c == 'a' || c == 'e' || c == 'i' || c == 'o' || c == 'u' || c == 'y'

/-- The class `[^laeiouy]`. -/
def notLVowelY (c : Char) : Bool := !(c == 'l' || isVowelY c)

/-- The function `countSyllables`.  It is only called on matches of `[\w']+`, which are
ASCII, where `toLowerCase` is ASCII lower-casing. -/
def countSyllables (word : Str) : Nat :=
  let lower := word.map Char.toLower
  let ending : Re :=
    .seq (.alt (.seq (.cls notLVowelY) (lit "es"))
            (.alt (lit "ed") (.seq (.cls notLVowelY) (lit "e")))) .eos
  let cleaned :=
    replaceFirst ⟨.seq .bos (lit "y"), false⟩ [] (replaceFirst ⟨ending, false⟩ [] lower)
  let found := matchAll ⟨.rep isVowelY 1 (some 2), false⟩ cleaned
  if found.length = 0 then 1 else found.length

/-- The pattern `/[.!?]/` on which sentences are split. -/
def sentenceEnd : RegExp := ⟨.cls fun c => c == '.' || c == '!' || c == '?', false⟩

/-- The expression `text.split(/[.!?]/).map(s => s.trim()).filter(Boolean)`. -/
def splitSentences (text : Str) : List Str :=
  ((split sentenceEnd text).map trim).filter fun s => !s.isEmpty

/-! ### Double-precision arithmetic

`computeStats` computes the reading ease in IEEE-754 double precision.  A finite double
is `m * 2 ^ e`; each operation rounds its exact result to the nearest double, ties to
even.  Overflow does not arise: the operands are counts of matches in one string. -/

/-- A finite double, `m * 2 ^ e`. -/
structure F64 where
  /-- the signed significand -/
  m : Int
  /-- the exponent -/
  e : Int
  deriving DecidableEq, Repr

/-- Number of binary digits of `n`; the first argument bounds the recursion. -/
def bitLen : Nat → Nat → Nat
  | 0, _ => 0
  | f + 1, n => if n = 0 then 0 else bitLen f (n / 2) + 1

/-- The double nearest to `n / d` (for `d > 0`), ties to even. -/
def F64.round (n : Int) (d : Nat) : F64 :=
  if n = 0 then ⟨0, 0⟩ else
  let a := n.natAbs
  let t : Int := (bitLen a a : Int) - (bitLen d d : Int)
  let lg : Int := if d * 2 ^ t.toNat ≤ a * 2 ^ (-t).toNat then t else t - 1
  let e : Int := max (lg - 52) (-1074)
  let num := a * 2 ^ (-e).toNat
  let den := d * 2 ^ e.toNat
  let q := num / den
  let r := num % den
  let m := if den < 2 * r ∨ (2 * r = den ∧ q % 2 = 1) then q + 1 else q
  ⟨n.sign * m, e⟩

/-- The exact value of a double as a fraction: numerator and denominator. -/
def F64.frac (x : F64) : Int × Nat := (x.m * 2 ^ x.e.toNat, 2 ^ (-x.e).toNat)

/-- Double multiplication. -/
def F64.mul (x y : F64) : F64 :=
  let (a, b) := x.frac
  let (c, d) := y.frac
  F64.round (a * c) (b * d)

/-- Double subtraction. -/
def F64.sub (x y : F64) : F64 :=
  let (a, b) := x.frac
  let (c, d) := y.frac
  F64.round (a * d - c * b) (b * d)

/-- Division of two counts, each below `2 ^ 53` and so a double itself. -/
def F64.divNat (a b : Nat) : F64 := F64.round a b

/-- `Math.round`: the integer nearest to `x`, ties towards positive infinity. -/
def F64.mathRound (x : F64) : Int :=
  let (a, b) := x.frac
  (2 * a + b) / (2 * b)

/-- The result of `computeStats`. -/
structure Stats where
  /-- number of words -/
  wordCount : Nat
  /-- minutes to read -/
  readTime : Nat
  /-- the clarity label -/
  clarity : String
  /-- the rounded reading ease -/
  readingEase : Int
  deriving DecidableEq, Repr

/-- The pattern `/\b[\w']+\b/g` of the words. -/
def wordPattern : RegExp :=
  ⟨.seq .wordB (.seq (.rep (fun c => isWordChar c || c == '\'') 1 none) .wordB), false⟩

/-- The function `computeStats`.  `Math.ceil(wordCount / 200)` is computed in the
integers: a double quotient of a count below `2 ^ 53` by 200 never rounds across an
integer. -/
def computeStats (text : Str) : Stats :=
  let words := matchAll wordPattern (trim text)
  let sentences := splitSentences text
  let wordCount := words.length
  let sentenceCount := max sentences.length 1
  let syllables := words.foldl (fun sum word => sum + countSyllables word) 0
  let readingEase := F64.mathRound
    (((F64.round 206835 1000).sub ((F64.round 1015 1000).mul (F64.divNat wordCount sentenceCount))).sub
      ((F64.round 846 10).mul (F64.divNat syllables (max wordCount 1))))
  let readTime := max 1 ((wordCount + 199) / 200)
  let clarity :=
    if readingEase ≥ 80 then "Easy"
    else if readingEase ≤ 50 then "Complex"
    else "Standard"
  { wordCount, readTime, clarity, readingEase }

/-- The pattern of the action verbs, with the flag `i`. -/
def actionPattern : RegExp :=
  ⟨.alt (lit "recommend") (.alt (lit "start") (.alt (lit "schedule") (.alt (lit "call")
    (.alt (lit "follow") (.alt (lit "return") (.alt (lit "take") (.alt (lit "rest")
      (lit "encourage")))))))), true⟩

/-- The sentence `extractActions` returns when no sentence has an action verb. -/
def fallbackAction : String := "Ask your care team to explain any parts you do not understand."

/-- The function `extractActions`. -/
def extractActions (text : Str) : List Str :=
  let sentences := splitSentences text
  let actions := sentences.filter fun s => actionPattern.test s
  if actions.length ≠ 0 then actions else [fallbackAction.toList]

/-- The object `buildOutputFromResult` returns. -/
structure Output where
  /-- the markup fragment -/
  html : Str
  /-- the simplified text -/
  simple : Str
  /-- the action items -/
  actions : List Str
  deriving DecidableEq

/-- The markup before the simplified text, up to the opening of its paragraph. -/
def htmlHead (audience : Audience) : Str :=
  ("\n      <div class=\"result-card\">\n        <div class=\"chip\">Plain-language version</div>\n        <p>"
    ++ AUDIENCE_WRAP audience ++ "</p>\n        <p>").toList

/-- The markup between the simplified text and the list of actions. -/
def htmlMid (tone : Tone) : Str :=
  ("</p>\n      </div>\n      <div class=\"result-card\">\n        <strong>"
    ++ TONE_HINT tone ++ "</strong>\n        <ul>").toList

/-- The markup after the list of actions. -/
def htmlTail : Str :=
  ("</ul>\n      </div>\n      <div class=\"result-card\">\n        <strong>What to ask next</strong>\n        <ul>\n"
    ++ "          <li>What should I watch for at home?</li>\n"
    ++ "          <li>When should I come back or call?</li>\n"
    ++ "          <li>What changes can I make this week?</li>\n"
    ++ "        </ul>\n      </div>").toList

/-- One item of the list of actions. -/
def actionItem (a : Str) : Str := "<li>".toList ++ escapeHtml a ++ ".</li>".toList

/-- The function `buildOutputFromResult`. -/
def buildOutputFromResult (simple : Str) (actions : List Str) (audience : Audience)
    (tone : Tone) (highlight : Bool) : Output :=
  let simpleHtml := if highlight then highlightTerms simple else escapeHtml simple
  { html := htmlHead audience ++ simpleHtml ++ htmlMid tone
      ++ (actions.map actionItem).flatten ++ htmlTail,
    simple := simple,
    actions := actions }

/-- The function `buildOutput`. -/
def buildOutput (text : Str) (audience : Audience) (tone : Tone) (highlight : Bool) :
    Output :=
  let simple := simplify text
  let actions := extractActions simple
  buildOutputFromResult simple actions audience tone highlight

/-! ## The page and `renderOutput` -/

/-- A JSON value, as `response.json()` gives it.  Of a number the code only asks whether
it is zero. -/
inductive JVal where
  /-- `null` -/
  | null
  /-- `true` or `false` -/
  | bool (b : Bool)
  /-- a number; `isZero` says whether it is `0` or `-0` -/
  | num (isZero : Bool)
  /-- a string -/
  | str (s : Str)
  /-- an array -/
  | arr (items : List JVal)
  /-- an object: its members in the order of the text, a later one overriding an
  earlier one of the same name -/
  | obj (fields : List (String × JVal))

/-- The property `key` of a parsed value other than `null`, for the names `simple`,
`output` and `actions`: the member of an object, and `undefined` (`none`) when an
object has no such member or the value is no object. -/
def JVal.field : JVal → String → Option JVal
  | .obj fields, key => (fields.reverse.find? fun kv => kv.1 == key).map fun kv => kv.2
  | _, _ => none

/-- Is a value truthy?  `undefined`, `null`, `false`, zero and the empty string are not. -/
def truthy : Option JVal → Bool
  | none => false
  | some .null => false
  | some (.bool b) => b
  | some (.num isZero) => !isZero
  | some (.str s) => !s.isEmpty
  | some (.arr _) => true
  | some (.obj _) => true

/-- JavaScript `a || b`. -/
def jsOr (a b : Option JVal) : Option JVal := if truthy a then a else b

/-- The string on which `split` or `replace` is called; `none` when the value is no
string: it has no such method (no JSON value is a function), and the call throws. -/
def asString : Option JVal → Option Str
  | some (.str s) => some s
  | _ => none

/-- The strings of an array whose items all go through `escapeHtml`; `none` when one is
no string and the call throws. -/
def asStrings : List JVal → Option (List Str)
  | [] => some []
  | v :: vs =>
      match asString (some v), asStrings vs with
      | some s, some ss => some (s :: ss)
      | _, _ => none

/-- What `await fetch(...)` and `await response.json()` come to. -/
inductive Remote where
  /-- `fetch` rejects -/
  | networkError
  /-- an answer whose `ok` is as given; its body parses to `body`, or does not parse -/
  | response (ok : Bool) (body : Option JVal)

/-- The controls `renderOutput` reads. -/
structure Controls where
  /-- `noteEl.value` -/
  note : Str
  /-- the audience selector -/
  audience : Audience
  /-- the tone selector -/
  tone : Tone
  /-- `highlightToggle.checked` -/
  highlight : Bool
  /-- `aiToggle.checked`, `none` when the page has no such toggle -/
  useAi : Option Bool

/-- The cells `renderOutput` writes. -/
structure Page where
  /-- `outEl.innerHTML` -/
  outHtml : Str
  /-- `translationNotes.textContent` -/
  translationNotes : Str
  /-- `lastOutput` -/
  lastOutput : Option Output
  /-- what `updateMetrics` shows: the statistics of the note -/
  metrics : Stats

/-- The decimal form of an integer, as a template literal prints it. -/
def intToStr : Int → Str
  | .ofNat n => Nat.toDigits 10 n
  | .negSucc n => '-' :: Nat.toDigits 10 (n + 1)

/-- The status text: a label, the clarity score of the simplified text, what follows it,
and the number of actions. -/
def statusText (label after : String) (result : Output) : Str :=
  label.toList ++ intToStr (computeStats result.simple).readingEase ++ after.toList
    ++ "Actions found: ".toList ++ Nat.toDigits 10 result.actions.length ++ ".".toList

/-- The local path of `renderOutput`, shared by the standard mode and the fallback:
`banner` is what the output element already shows, `label` and `after` are the fixed
parts of the status text. -/
def renderLocal (c : Controls) (text : Str) (banner : Str) (label after : String) : Page :=
  let result := buildOutput text c.audience c.tone c.highlight
  { outHtml := banner ++ result.html,
    translationNotes := statusText label after result,
    lastOutput := some result,
    metrics := computeStats c.note }

/-- The banner the fallback shows above the local result. -/
def fallbackBanner : Str :=
  "<div class=\"result-card\">AI service unavailable. Using standard translation.</div>".toList

/-- The `catch` block of `renderOutput`. -/
def renderFallback (c : Controls) (text : Str) : Page :=
  renderLocal c text fallbackBanner "Standard mode: clarity score " ". "

/-- The expression `data.simple || data.output || ""`. -/
def remoteSimple (data : JVal) : Option JVal :=
  jsOr (jsOr (data.field "simple") (data.field "output")) (some (.str []))

/-- The expression
`Array.isArray(data.actions) && data.actions.length ? data.actions : extractActions(simple)`;
`none` when `extractActions` throws because `simple` is no string. -/
def remoteActions (data : JVal) : Option (List JVal) :=
  match data.field "actions" with
  | some (.arr (a :: as)) => some (a :: as)
  | _ => (asString (remoteSimple data)).map fun s => (extractActions s).map JVal.str

/-- The call `buildOutputFromResult(simple || text, actions, audience, tone, highlight)`
with the two expressions before it; `none` when one of them throws a `TypeError`,
because `split` or `replace` is called on a value that is no string. -/
def composeRemote (c : Controls) (text : Str) (data : JVal) : Option Output :=
  match remoteActions data, asString (jsOr (remoteSimple data) (some (.str text))) with
  | some actions, some simpleText =>
      match asStrings actions with
      | some actionTexts =>
          some (buildOutputFromResult simpleText actionTexts c.audience c.tone c.highlight)
      | none => none
  | _, _ => none

/-- The part of the `try` block of `renderOutput` that composes the result from the
parsed body `data`; `none` when it throws a `TypeError`: reading `data.simple` throws
when `data` is `null`. -/
def remoteResult (c : Controls) (text : Str) (data : JVal) : Option Output :=
  match data with
  | .null => none
  | _ => composeRemote c text data

/-- The function `renderOutput`, run to completion: the cells it leaves, given what the
remote call comes to. -/
def renderOutput (c : Controls) (remote : Remote) : Page :=
  let text := trim c.note
  if text.isEmpty then
    { outHtml := "<div class=\"result-card\">Paste a doctor's note to translate.</div>".toList,
      translationNotes := "Paste a note to see translation notes.".toList,
      lastOutput := none,
      metrics := computeStats c.note }
  else if c.useAi = some true then
    match remote with
    | .response true (some data) =>
        match remoteResult c text data with
        | some result =>
            { outHtml := result.html,
              translationNotes := statusText "AI mode: clarity score " ". " result,
              lastOutput := some result,
              metrics := computeStats c.note }
        | none => renderFallback c text
    | _ => renderFallback c text
  else
    renderLocal c text [] "Clarity score: " " (estimated). "



/-! ## Notions the theorems are stated with -/

/-- A pattern that matches exactly the single characters of a class. -/
def CharWise (r : RegExp) (p : Char → Bool) : Prop :=
  (∀ prev, r.matchAt prev [] = none) ∧
    ∀ prev c cs, r.matchAt prev (c :: cs) = if p c then some 1 else none

/-- What `escapeHtml` makes of one character. -/
def escChar (c : Char) : Str :=
  if c = '&' then "&amp;".toList
  else if c = '<' then "&lt;".toList
  else if c = '>' then "&gt;".toList
  else if c = '"' then "&quot;".toList
  else if c = '\'' then "&#39;".toList
  else [c]

/-- The five entities `escapeHtml` writes. -/
def ENTITIES : List Str :=
  ["&amp;".toList, "&lt;".toList, "&gt;".toList, "&quot;".toList, "&#39;".toList]

/-- Every `&` of `l` starts one of the five entities. -/
def AmpOk (l : Str) : Prop :=
  ∀ pre post, l = pre ++ '&' :: post → ∃ ent ∈ ENTITIES, ent <+: '&' :: post

/-- No two white-space characters are adjacent. -/
def NoSpacePair (s : Str) : Prop :=
  s.Chain' fun a b => ¬(isSpace a = true ∧ isSpace b = true)

/-- A white-space-normalized string: no white space at either end, and every white-space
character is a single space with no white space next to it. -/
def Normalized (s : Str) : Prop :=
  (∀ c, s.head? = some c → isSpace c = false)
    ∧ (∀ c, s.getLast? = some c → isSpace c = false)
    ∧ (∀ c ∈ s, isSpace c = true → c = ' ')
    ∧ NoSpacePair s

/-- What a global replacement by the string `repl` writes for one piece of the scan. -/
def segOut (repl : Str) : Seg → Str
  | .raw c => [c]
  | .hit _ => repl

/-- The string has a character that is no white space. -/
def HasInk (s : Str) : Prop := ∃ c ∈ s, isSpace c = false

/-- The pattern of the two `mark` tags. -/
def markTags : RegExp := ⟨.alt (lit "<mark>") (lit "</mark>"), false⟩

/-- The string without its `mark` tags: every occurrence of `<mark>` and of `</mark>`
is deleted. -/
def stripMarks (s : Str) : Str := replaceAll markTags [] s

/-- Are the `mark` tags of a string balanced?  Reading from the left at nesting depth
`d`, no `</mark>` comes without an open `<mark>`, and all are closed at the end. -/
def marksBalanced : Nat → Str → Bool
  | d, [] => d == 0
  | d, c :: cs =>
      if litPrefix false "<mark>".toList (c :: cs) then marksBalanced (d + 1) cs
      else if litPrefix false "</mark>".toList (c :: cs) then
        d != 0 && marksBalanced (d - 1) cs
      else marksBalanced d cs

/-- A piece of highlighted text: a character of the text or one of the two tags. -/
inductive Tok where
  /-- a character of the text -/
  | ch (c : Char)
  /-- the tag `<mark>` -/
  | op
  /-- the tag `</mark>` -/
  | cl

/-- The string of one piece. -/
def Tok.render : Tok → Str
  | .ch c => [c]
  | .op => "<mark>".toList
  | .cl => "</mark>".toList

/-- The string of a list of pieces. -/
def render (toks : List Tok) : Str := toks.flatMap Tok.render

/-- The text of a list of pieces, without the tags. -/
def chars : List Tok → Str
  | [] => []
  | .ch c :: t => c :: chars t
  | .op :: t => chars t
  | .cl :: t => chars t

/-- Balance of the tags in a list of pieces, from nesting depth `d`. -/
def tokBalanced : Nat → List Tok → Bool
  | d, [] => d == 0
  | d, .ch _ :: t => tokBalanced d t
  | d, .op :: t => tokBalanced (d + 1) t
  | d, .cl :: t => d != 0 && tokBalanced (d - 1) t

/-- No character of the text is `<`. -/
def NoLt (toks : List Tok) : Prop := ∀ c, Tok.ch c ∈ toks → c ≠ '<'

/-- What `markTerm` writes for one piece of the scan. -/
def segMark : Seg → Str
  | .raw c => [c]
  | .hit m => "<mark>".toList ++ m ++ "</mark>".toList

/-- The pattern `\bl\b` with the flags `gi`. -/
def boundedLit (l : Str) : RegExp := ⟨.seq .wordB (.seq (.str l) .wordB), true⟩

/-- A term whose matches cannot touch a tag: it starts with none of the characters of
the tags, and has no character that matches `<`. -/
def termOk (l : Str) : Bool :=
  match l with
  | [] => false
  | p :: _ => "<mark>/".toList.all (fun x => !chEq true p x) && l.all fun q => !chEq true q '<'

/-- A body from which `renderOutput` composes a result without a `TypeError`: it is not
`null`; the one of `data.simple` and `data.output` that is used is a string; and the
items of `data.actions`, when that is an array, are strings. -/
def TextBody (data : JVal) : Prop :=
  data ≠ .null
    ∧ (truthy (data.field "simple") = true → ∃ s, data.field "simple" = some (.str s))
    ∧ (truthy (data.field "simple") = false → truthy (data.field "output") = true →
        ∃ o, data.field "output" = some (.str o))
    ∧ ∀ items, data.field "actions" = some (.arr items) → ∀ v ∈ items, ∃ s, v = .str s
/-! ## Lemmas on the matcher -/

theorem prevAt_cons (prev : Option Char) (c : Char) (cs : Str) (k : Nat) :
    prevAt prev (c :: cs) (k + 1) = prevAt (some c) cs k := by
  cases k <;> simp [prevAt]

/-- Passing the characters of a match: the scan resumes at the end of the match. -/
theorem scan_skip (r : RegExp) (s : Str) :
    ∀ (prev : Option Char) (k : Nat), k ≤ s.length →
      r.scan prev s k = r.scan (prevAt prev s k) (s.drop k) 0 := by
  induction s with
  | nil =>
      intro prev k hk
      have : k = 0 := by simpa using hk
      subst this
      simp [prevAt]
  | cons c cs ih =>
      intro prev k hk
      cases k with
      | zero => simp [prevAt]
      | succ k =>
          have hk2 : k ≤ cs.length := by simpa using hk
          rw [RegExp.scan, ih (some c) k hk2, prevAt_cons]
          simp

theorem scan_charWise {r : RegExp} {p : Char → Bool} (h : CharWise r p) (s : Str) :
    ∀ prev, r.scan prev s 0 = s.map fun c => if p c then Seg.hit [c] else Seg.raw c := by
  induction s with
  | nil => intro prev; simp [RegExp.scan, h.1]
  | cons c cs ih =>
      intro prev
      rw [RegExp.scan, h.2]
      by_cases hp : p c
      · simp [hp, ih]
      · simp [hp, ih]


/-! ## End-to-end scenarios of `simplify` -/

set_option maxRecDepth 100000 in
/-- C2: `simplify("Pt w/ HTN and DM2 reports dyspnea")` is the sentence below, which
contains "the patient", "high blood pressure", "type 2 diabetes" and "shortness of
breath". -/
theorem simplify_scenario_one :
    simplify "Pt w/ HTN and DM2 reports dyspnea".toList
        = "the patient with high blood pressure and type 2 diabetes reports shortness of breath".toList
      ∧ "the patient".toList <:+: simplify "Pt w/ HTN and DM2 reports dyspnea".toList
      ∧ "high blood pressure".toList <:+: simplify "Pt w/ HTN and DM2 reports dyspnea".toList
      ∧ "type 2 diabetes".toList <:+: simplify "Pt w/ HTN and DM2 reports dyspnea".toList
      ∧ "shortness of breath".toList <:+: simplify "Pt w/ HTN and DM2 reports dyspnea".toList := by
  have h : simplify "Pt w/ HTN and DM2 reports dyspnea".toList
      = "the patient with high blood pressure and type 2 diabetes reports shortness of breath".toList := by
    decide
  rw [h]
  refine ⟨rfl, ?_, ?_, ?_, ?_⟩ <;> decide

set_option maxRecDepth 100000 in
/-- C9: on "ACEi" the rule `acei` gives "blood pressure medicine"; the later rule `ed`
matches inside "medicine" and the rule `er` inside the inserted "emergency", so the
result of `simplify` no longer contains "blood pressure medicine". -/
theorem simplify_acei_corrupted :
    (REPLACEMENTS.take 8).foldl applyRule "ACEi".toList = "blood pressure medicine".toList
      ∧ (REPLACEMENTS.take 22).foldl applyRule "ACEi".toList = "blood pressure medicine".toList
      ∧ REPLACEMENTS.get? 22 = some (lit "ed", "emergency department")
      ∧ (REPLACEMENTS.take 23).foldl applyRule "ACEi".toList
          = "blood pressure memergency departmenticine".toList
      ∧ REPLACEMENTS.get? 23 = some (lit "er", "emergency room")
      ∧ (REPLACEMENTS.take 24).foldl applyRule "ACEi".toList
          = "blood pressure mememergency roomgency departmenticine".toList
      ∧ simplify "ACEi".toList
          = "blood pressure mememergency roomgency departmenticine".toList
      ∧ ¬ "blood pressure medicine".toList <:+: simplify "ACEi".toList := by
  have h : simplify "ACEi".toList
      = "blood pressure mememergency roomgency departmenticine".toList := by decide
  rw [h]
  refine ⟨by decide, by decide, rfl, by decide, rfl, by decide, rfl, by decide⟩


/-! ## Sentences and actions -/

theorem charWise_sentenceEnd :
    CharWise sentenceEnd (fun c => c == '.' || c == '!' || c == '?') := by
  constructor
  · intro prev; simp [RegExp.matchAt, sentenceEnd, Re.lens]
  · intro prev c cs
    simp only [RegExp.matchAt, sentenceEnd, Re.lens]
    split_ifs <;> simp

/-- The characters of the pieces of a split are characters of the text that are no
separators. -/
theorem split_charWise_mem {r : RegExp} {p : Char → Bool} (h : CharWise r p) (s : Str) :
    ∀ piece ∈ split r s, ∀ c ∈ piece, c ∈ s ∧ p c = false := by
  unfold split
  rw [scan_charWise h]
  induction s with
  | nil => simp
  | cons d ds ih =>
      simp only [List.map_cons, List.foldr_cons]
      by_cases hp : p d
      · simp only [hp, if_true]
        intro piece hpiece c hc
        rcases List.mem_cons.1 hpiece with e | e
        · subst e; simp at hc
        · exact ⟨List.mem_cons_of_mem _ (ih piece e c hc).1, (ih piece e c hc).2⟩
      · simp only [hp]
        generalize hacc : List.foldr _ _ _ = acc at ih ⊢
        cases acc with
        | nil =>
            intro piece hpiece c hc
            simp at hpiece
            subst hpiece
            simp at hc
            subst hc
            simp [hp]
        | cons q qs =>
            intro piece hpiece c hc
            simp only [Bool.false_eq_true, if_false] at hpiece
            rcases List.mem_cons.1 hpiece with e | e
            · subst e
              rcases List.mem_cons.1 hc with e2 | e2
              · subst e2; simp [hp]
              · have := ih q (by simp) c e2
                exact ⟨List.mem_cons_of_mem _ this.1, this.2⟩
            · have := ih piece (by simp [e]) c hc
              exact ⟨List.mem_cons_of_mem _ this.1, this.2⟩

theorem trim_eq_nil_of_all_space {s : Str} (h : ∀ c ∈ s, isSpace c = true) : trim s = [] := by
  unfold trim
  have : s.dropWhile isSpace = [] := by
    rw [List.dropWhile_eq_nil_iff]; exact h
  simp [this]

theorem splitSentences_eq_nil {text : Str}
    (h : ∀ c ∈ text, c = '.' ∨ c = '!' ∨ c = '?' ∨ isSpace c = true) :
    splitSentences text = [] := by
  unfold splitSentences
  rw [List.filter_eq_nil_iff]
  intro t ht
  obtain ⟨piece, hpiece, rfl⟩ := List.mem_map.1 ht
  have hall : ∀ c ∈ piece, isSpace c = true := by
    intro c hc
    have hm := split_charWise_mem charWise_sentenceEnd text piece hpiece c hc
    rcases h c hm.1 with e | e | e | e
    · subst e; simp at hm
    · subst e; simp at hm
    · subst e; simp at hm
    · exact e
  simp [trim_eq_nil_of_all_space hall]

/-- C1: `extractActions` returns at least one sentence: the sentences of the text with an
action verb when there is one, and otherwise the one fallback sentence, as for the
empty text and for a text of `.`, `!`, `?` and white space only. -/
theorem extractActions_nonempty (text : Str) :
    1 ≤ (extractActions text).length
      ∧ extractActions text
          = (if (splitSentences text).filter (fun s => actionPattern.test s) = []
              then ["Ask your care team to explain any parts you do not understand.".toList]
              else (splitSentences text).filter fun s => actionPattern.test s)
      ∧ ((∀ c ∈ text, c = '.' ∨ c = '!' ∨ c = '?' ∨ isSpace c = true) →
          extractActions text
            = ["Ask your care team to explain any parts you do not understand.".toList])
      ∧ extractActions []
          = ["Ask your care team to explain any parts you do not understand.".toList] := by
  have h2 : extractActions text
      = (if (splitSentences text).filter (fun s => actionPattern.test s) = []
          then ["Ask your care team to explain any parts you do not understand.".toList]
          else (splitSentences text).filter fun s => actionPattern.test s) := by
    unfold extractActions
    by_cases h : (splitSentences text).filter (fun s => actionPattern.test s) = []
    · simp [h, fallbackAction]
    · have : ((splitSentences text).filter fun s => actionPattern.test s).length ≠ 0 := by
        simpa using h
      simp [h]
  have h3 : ∀ t : Str, (∀ c ∈ t, c = '.' ∨ c = '!' ∨ c = '?' ∨ isSpace c = true) →
      extractActions t
        = ["Ask your care team to explain any parts you do not understand.".toList] := by
    intro t ht
    unfold extractActions
    simp [splitSentences_eq_nil ht, fallbackAction]
  refine ⟨?_, h2, h3 text, h3 [] (by simp)⟩
  rw [h2]
  split_ifs with h
  · simp
  · exact List.length_pos.2 h

set_option maxRecDepth 100000 in
/-- C1 at concrete inputs: a text of separators and white space gives the fallback, a
note with two action sentences gives those two. -/
theorem extractActions_nonempty_witness :
    extractActions " .!? \n".toList
        = ["Ask your care team to explain any parts you do not understand.".toList]
      ∧ extractActions "Rest well. No fever! Call us if worse?".toList
        = ["Rest well".toList, "Call us if worse".toList] :=
  ⟨(extractActions_nonempty " .!? \n".toList).2.2.1 (by decide), by decide⟩

/-! ## Statistics -/

theorem ceil_div_200 (w : Nat) : ⌈(w : ℚ) / 200⌉₊ = (w + 199) / 200 := by
  apply le_antisymm
  · rw [Nat.ceil_le, div_le_iff₀ (by norm_num)]
    have h : w ≤ (w + 199) / 200 * 200 := by omega
    exact_mod_cast h
  · have h : ((w + 199) / 200 : ℕ) < ⌈(w : ℚ) / 200⌉₊ + 1 := by
      rw [Nat.div_lt_iff_lt_mul (by norm_num)]
      have h1 : (w : ℚ) / 200 ≤ ⌈(w : ℚ) / 200⌉₊ := Nat.le_ceil _
      rw [div_le_iff₀ (by norm_num)] at h1
      have h2 : w ≤ ⌈(w : ℚ) / 200⌉₊ * 200 := by exact_mod_cast h1
      omega
    omega

/-- C7: the reading time is `max(1, ceil(wordCount / 200))`, where `wordCount` is the
number of matches of the word pattern in the trimmed text: it is at least 1, it is 1 up
to 200 words (as for the empty text, which has none), and 2 from 201 to 400 words. -/
theorem computeStats_readTime (text : Str) :
    (computeStats text).wordCount = (matchAll wordPattern (trim text)).length
      ∧ (computeStats text).readTime = max 1 ⌈((computeStats text).wordCount : ℚ) / 200⌉₊
      ∧ 1 ≤ (computeStats text).readTime
      ∧ ((computeStats text).wordCount ≤ 200 → (computeStats text).readTime = 1)
      ∧ (201 ≤ (computeStats text).wordCount → (computeStats text).wordCount ≤ 400 →
          (computeStats text).readTime = 2)
      ∧ (computeStats []).wordCount = 0 ∧ (computeStats []).readTime = 1 := by
  have hw : (computeStats text).wordCount = (matchAll wordPattern (trim text)).length := rfl
  have hr : (computeStats text).readTime
      = max 1 (((computeStats text).wordCount + 199) / 200) := rfl
  refine ⟨hw, ?_, ?_, ?_, ?_, by decide, by decide⟩
  · rw [ceil_div_200]; exact hr
  · rw [hr]; exact le_max_left _ _
  · intro h; rw [hr]; omega
  · intro h1 h2; rw [hr]; omega

set_option maxRecDepth 1000000 in
/-- C7 at concrete inputs: a text of 200 words reads in 1 minute, one of 201 words in 2. -/
theorem computeStats_readTime_witness :
    (computeStats (List.replicate 200 "ab ".toList).flatten).wordCount = 200
      ∧ (computeStats (List.replicate 200 "ab ".toList).flatten).readTime = 1
      ∧ (computeStats (List.replicate 201 "ab ".toList).flatten).wordCount = 201
      ∧ (computeStats (List.replicate 201 "ab ".toList).flatten).readTime = 2 :=
  ⟨by decide,
   (computeStats_readTime (List.replicate 200 "ab ".toList).flatten).2.2.2.1 (by decide),
   by decide,
   (computeStats_readTime (List.replicate 201 "ab ".toList).flatten).2.2.2.2.1
     (by decide) (by decide)⟩

set_option maxRecDepth 1000000 in
/-- C8: the clarity label is fixed by the reading ease: "Easy" exactly from 80 up,
"Complex" exactly up to 50, "Standard" exactly in between; so it is one of the three,
and the three texts below, of reading ease 80, 50 and 65, are Easy, Complex and
Standard. -/
theorem computeStats_clarity (text : Str) :
    ((computeStats text).clarity = "Easy" ↔ 80 ≤ (computeStats text).readingEase)
      ∧ ((computeStats text).clarity = "Complex" ↔ (computeStats text).readingEase ≤ 50)
      ∧ ((computeStats text).clarity = "Standard" ↔
          50 < (computeStats text).readingEase ∧ (computeStats text).readingEase < 80)
      ∧ ((computeStats text).clarity = "Easy" ∨ (computeStats text).clarity = "Standard"
          ∨ (computeStats text).clarity = "Complex")
      ∧ computeStats "banana. banana a a a a a a a".toList = ⟨9, 1, "Easy", 80⟩
      ∧ computeStats "baby. banana. banana a a a".toList = ⟨6, 1, "Complex", 50⟩
      ∧ computeStats "banana. a. a".toList = ⟨3, 1, "Standard", 65⟩ := by
  have hc : (computeStats text).clarity
      = if (computeStats text).readingEase ≥ 80 then "Easy"
        else if (computeStats text).readingEase ≤ 50 then "Complex" else "Standard" := rfl
  refine ⟨?_, ?_, ?_, ?_, by decide, by decide, by decide⟩
  all_goals
    rw [hc]
    split_ifs with h1 h2
    all_goals first
      | (constructor <;> intro h <;> first | omega | exact absurd h (by decide) | rfl)
      | simp

theorem charWise_single (x : Char) : CharWise ⟨.str [x], false⟩ (fun c => x == c) := by
  constructor
  · intro prev; simp [RegExp.matchAt, Re.lens, litPrefix]
  · intro prev c cs
    by_cases h : x = c <;> simp [RegExp.matchAt, Re.lens, litPrefix, chEq, h]

theorem replaceAll_charWise {r : RegExp} {p : Char → Bool} (h : CharWise r p)
    (repl s : Str) :
    replaceAll r repl s = s.flatMap fun c => if p c then repl else [c] := by
  unfold replaceAll replaceAllWith
  rw [scan_charWise h]
  induction s with
  | nil => rfl
  | cons c cs ih =>
      simp only [List.map_cons, List.flatMap_cons, ih]
      by_cases hp : p c <;> simp [hp]

theorem replaceAll_single (x : Char) (repl s : Str) :
    replaceAll ⟨.str [x], false⟩ repl s = s.flatMap fun c => if x == c then repl else [c] :=
  replaceAll_charWise (charWise_single x) repl s

/-- `escapeHtml` rewrites its input character by character. -/
theorem escapeHtml_eq_flatMap (s : Str) : escapeHtml s = s.flatMap escChar := by
  have e1 : lit "&" = .str ['&'] := rfl
  have e2 : lit "<" = .str ['<'] := rfl
  have e3 : lit ">" = .str ['>'] := rfl
  have e4 : lit "\"" = .str ['"'] := rfl
  have e5 : lit "'" = .str ['\''] := rfl
  unfold escapeHtml
  simp only [e1, e2, e3, e4, e5, replaceAll_single, List.flatMap_assoc]
  congr 1
  funext c
  unfold escChar
  by_cases h1 : c = '&'
  · subst h1; decide
  by_cases h2 : c = '<'
  · subst h2; decide
  by_cases h3 : c = '>'
  · subst h3; decide
  by_cases h4 : c = '"'
  · subst h4; decide
  by_cases h5 : c = '\''
  · subst h5; decide
  simp [h1, h2, h3, h4, h5, Ne.symm h1, Ne.symm h2, Ne.symm h3, Ne.symm h4, Ne.symm h5]

theorem escChar_clean (d c : Char) (h : c ∈ escChar d) :
    c ≠ '<' ∧ c ≠ '>' ∧ c ≠ '"' ∧ c ≠ '\'' := by
  unfold escChar at h
  split_ifs at h with h1 h2 h3 h4 h5
  · revert c; decide
  · revert c; decide
  · revert c; decide
  · revert c; decide
  · revert c; decide
  · simp only [List.mem_singleton] at h
    subst h
    exact ⟨h2, h3, h4, h5⟩

theorem escapeHtml_clean (s : Str) (c : Char) (h : c ∈ escapeHtml s) :
    c ≠ '<' ∧ c ≠ '>' ∧ c ≠ '"' ∧ c ≠ '\'' := by
  rw [escapeHtml_eq_flatMap, List.mem_flatMap] at h
  obtain ⟨d, _, hd⟩ := h
  exact escChar_clean d c hd

theorem ampOk_nil : AmpOk [] := by
  intro pre post h
  simp at h

theorem ampOk_cons {c : Char} {l : Str} (hc : c ≠ '&') (h : AmpOk l) : AmpOk (c :: l) := by
  intro pre post e
  cases pre with
  | nil => simp at e; exact absurd e.1 hc
  | cons p pre =>
      simp only [List.cons_append, List.cons.injEq] at e
      exact h pre post e.2

theorem ampOk_append {t l : Str} (ht : ∀ c ∈ t, c ≠ '&') (h : AmpOk l) : AmpOk (t ++ l) := by
  induction t with
  | nil => simpa using h
  | cons c t ih =>
      exact ampOk_cons (ht c (by simp)) (ih fun d hd => ht d (by simp [hd]))

theorem ampOk_entity {t l : Str} (hent : '&' :: t ∈ ENTITIES) (ht : ∀ c ∈ t, c ≠ '&')
    (h : AmpOk l) : AmpOk (('&' :: t) ++ l) := by
  intro pre post e
  cases pre with
  | nil =>
      simp only [List.nil_append] at e
      exact ⟨'&' :: t, hent, by rw [← e]; exact List.prefix_append _ _⟩
  | cons p pre =>
      simp only [List.cons_append, List.cons.injEq] at e
      exact ampOk_append ht h pre post e.2

theorem ampOk_escChar (d : Char) {l : Str} (h : AmpOk l) : AmpOk (escChar d ++ l) := by
  unfold escChar
  split_ifs with h1 h2 h3 h4 h5
  · exact ampOk_entity (t := "amp;".toList) (by decide) (by decide) h
  · exact ampOk_entity (t := "lt;".toList) (by decide) (by decide) h
  · exact ampOk_entity (t := "gt;".toList) (by decide) (by decide) h
  · exact ampOk_entity (t := "quot;".toList) (by decide) (by decide) h
  · exact ampOk_entity (t := "#39;".toList) (by decide) (by decide) h
  · exact ampOk_cons h1 h

theorem escapeHtml_ampOk (s : Str) : AmpOk (escapeHtml s) := by
  rw [escapeHtml_eq_flatMap]
  induction s with
  | nil => exact ampOk_nil
  | cons d s ih => simpa [List.flatMap_cons] using ampOk_escChar d ih

/-- C6: the output of `escapeHtml` has none of the characters `<`, `>`, `"` and `'`, and
every `&` in it starts one of the entities `&amp;`, `&lt;`, `&gt;`, `&quot;`, `&#39;`;
without highlighting, the markup fragment is the fixed template around the escaped
simplified text and the escaped action items. -/
theorem escapeHtml_safe (s : Str) :
    (∀ c ∈ escapeHtml s, c ≠ '<' ∧ c ≠ '>' ∧ c ≠ '"' ∧ c ≠ '\'')
      ∧ (∀ pre post, escapeHtml s = pre ++ '&' :: post →
          ∃ ent ∈ ["&amp;".toList, "&lt;".toList, "&gt;".toList, "&quot;".toList,
            "&#39;".toList], ent <+: '&' :: post)
      ∧ ∀ (actions : List Str) (audience : Audience) (tone : Tone),
          (buildOutputFromResult s actions audience tone false).html
            = htmlHead audience ++ escapeHtml s ++ htmlMid tone
              ++ (actions.map fun a => "<li>".toList ++ escapeHtml a ++ ".</li>".toList).flatten
              ++ htmlTail :=
  ⟨escapeHtml_clean s, escapeHtml_ampOk s, fun _ _ _ => rfl⟩

/-! ## White space -/

theorem replaceAll_eq (r : RegExp) (repl s : Str) :
    replaceAll r repl s = (r.scan none s 0).flatMap (segOut repl) := by
  unfold replaceAll replaceAllWith
  congr 1

theorem rep_head (lo k : Nat) :
    (((List.range (k + 1)).filter (lo ≤ ·)).reverse).head? = if lo ≤ k then some k else none := by
  by_cases h : lo ≤ k
  · simp [List.range_succ, List.filter_append, h]
  · have : (List.range (k + 1)).filter (lo ≤ ·) = [] := by
      rw [List.filter_eq_nil_iff]
      intro x hx
      have := List.mem_range.1 hx
      simp; omega
    simp [this, h]

theorem run_nil (p : Char → Bool) : run p none [] = 0 := rfl

theorem run_cons (p : Char → Bool) (c : Char) (cs : Str) :
    run p none (c :: cs) = if p c then run p none cs + 1 else 0 := rfl

theorem run_le (p : Char → Bool) (s : Str) : run p none s ≤ s.length := by
  induction s with
  | nil => simp [run_nil]
  | cons c cs ih => rw [run_cons]; split_ifs <;> simp [ih]

theorem run_take (p : Char → Bool) (s : Str) : ∀ c ∈ s.take (run p none s), p c = true := by
  induction s with
  | nil => simp
  | cons d ds ih =>
      rw [run_cons]
      split_ifs with h
      · intro c hc
        rcases List.mem_cons.1 (by simpa using hc) with e | e
        · rw [e]; exact h
        · exact ih c e
      · simp

theorem run_drop_head (p : Char → Bool) (s : Str) :
    ∀ c, (s.drop (run p none s)).head? = some c → p c = false := by
  induction s with
  | nil => simp
  | cons d ds ih =>
      rw [run_cons]
      split_ifs with h
      · simpa using ih
      · intro c hc
        simp at hc
        rw [← hc]; simpa using h

theorem spaces_matchAt (prev : Option Char) (s : Str) :
    spaces.matchAt prev s
      = if 1 ≤ run isSpace none s then some (run isSpace none s) else none := by
  simp only [RegExp.matchAt, spaces, Re.lens]
  exact rep_head 1 _

theorem scan_spaces_nil (prev : Option Char) : spaces.scan prev [] 0 = [] := by
  simp [RegExp.scan, spaces_matchAt, run_nil]

theorem scan_spaces_ink (prev : Option Char) {c : Char} (cs : Str) (h : isSpace c = false) :
    spaces.scan prev (c :: cs) 0 = .raw c :: spaces.scan (some c) cs 0 := by
  simp [RegExp.scan, spaces_matchAt, run_cons, h]

theorem scan_spaces_space (prev : Option Char) {c : Char} (cs : Str) (h : isSpace c = true) :
    ∃ m prev2, spaces.scan prev (c :: cs) 0
      = .hit m :: spaces.scan prev2 (cs.drop (run isSpace none cs)) 0 := by
  refine ⟨(c :: cs).take (run isSpace none cs + 1),
    prevAt (some c) cs (run isSpace none cs), ?_⟩
  rw [RegExp.scan, spaces_matchAt, run_cons]
  simp only [h, if_true, Nat.le_add_left]
  rw [scan_skip _ _ _ _ (run_le _ _)]

/-- What replacing every run of white space by one space leaves: the only white space
is single spaces, no two adjacent; white space comes first only where it did; and the
other characters all stay. -/
theorem collapse_facts (n : Nat) :
    ∀ (s : Str) (prev : Option Char), s.length ≤ n →
      (∀ c ∈ (spaces.scan prev s 0).flatMap (segOut [' ']), isSpace c = true → c = ' ')
      ∧ NoSpacePair ((spaces.scan prev s 0).flatMap (segOut [' ']))
      ∧ (∀ c, ((spaces.scan prev s 0).flatMap (segOut [' '])).head? = some c →
          isSpace c = true → ∃ d, s.head? = some d ∧ isSpace d = true)
      ∧ (∀ c ∈ s, isSpace c = false → c ∈ (spaces.scan prev s 0).flatMap (segOut [' '])) := by
  induction n with
  | zero =>
      intro s prev hs
      have : s = [] := List.length_eq_zero.1 (Nat.le_zero.1 hs)
      subst this
      simp [scan_spaces_nil, NoSpacePair]
  | succ n ih =>
      intro s prev hs
      cases s with
      | nil => simp [scan_spaces_nil, NoSpacePair]
      | cons c cs =>
          have hcs : cs.length ≤ n := by simpa using hs
          by_cases hc : isSpace c = true
          · obtain ⟨m, prev2, e⟩ := scan_spaces_space prev cs hc
            have hd : (cs.drop (run isSpace none cs)).length ≤ n := by
              simp; omega
            obtain ⟨h1, h2, h3, h4⟩ := ih _ prev2 hd
            rw [e]
            simp only [List.flatMap_cons, segOut, List.singleton_append]
            refine ⟨?_, ?_, ?_, ?_⟩
            · intro x hx hsp
              rcases List.mem_cons.1 hx with e1 | e1
              · exact e1
              · exact h1 x e1 hsp
            · unfold NoSpacePair at h2 ⊢
              rw [List.chain'_cons']
              refine ⟨?_, h2⟩
              intro y hy hpair
              obtain ⟨d, hd1, hd2⟩ := h3 y (by simpa using hy) hpair.2
              have := run_drop_head isSpace cs d hd1
              rw [this] at hd2
              exact Bool.noConfusion hd2
            · intro x _ _
              exact ⟨c, rfl, hc⟩
            · intro x hx hsp
              rcases List.mem_cons.1 hx with e1 | e1
              · rw [e1, hc] at hsp; exact Bool.noConfusion hsp
              · have hx2 : x ∈ cs.drop (run isSpace none cs) := by
                  have hsplit := List.take_append_drop (run isSpace none cs) cs
                  rw [← hsplit] at e1
                  rcases List.mem_append.1 e1 with e2 | e2
                  · rw [run_take isSpace cs x e2] at hsp; exact Bool.noConfusion hsp
                  · exact e2
                exact List.mem_cons_of_mem _ (h4 x hx2 hsp)
          · have hc2 : isSpace c = false := by simpa using hc
            obtain ⟨h1, h2, h3, h4⟩ := ih cs (some c) hcs
            rw [scan_spaces_ink prev cs hc2]
            simp only [List.flatMap_cons, segOut, List.singleton_append]
            refine ⟨?_, ?_, ?_, ?_⟩
            · intro x hx hsp
              rcases List.mem_cons.1 hx with e1 | e1
              · rw [e1, hc2] at hsp; exact Bool.noConfusion hsp
              · exact h1 x e1 hsp
            · unfold NoSpacePair at h2 ⊢
              rw [List.chain'_cons']
              refine ⟨?_, h2⟩
              intro y _ hpair
              rw [hc2] at hpair
              exact Bool.noConfusion hpair.1
            · intro x hx hsp
              simp at hx
              rw [← hx, hc2] at hsp
              exact Bool.noConfusion hsp
            · intro x hx hsp
              rcases List.mem_cons.1 hx with e1 | e1
              · rw [e1]; exact List.mem_cons_self _ _
              · exact List.mem_cons_of_mem _ (h4 x e1 hsp)

theorem trim_within (s : Str) : trim s <:+: s := by
  have h1 : trim s <+: s.dropWhile isSpace := by
    have := List.rdropWhile_prefix isSpace (l := s.dropWhile isSpace)
    simpa [trim, List.rdropWhile] using this
  exact h1.isInfix.trans (List.dropWhile_suffix isSpace).isInfix

theorem trim_last (s : Str) : ∀ c, (trim s).getLast? = some c → isSpace c = false := by
  intro c hc
  unfold trim at hc
  rw [List.getLast?_reverse] at hc
  have := List.head?_dropWhile_not isSpace (s.dropWhile isSpace).reverse
  rw [hc] at this
  simpa using this

theorem trim_head (s : Str) : ∀ c, (trim s).head? = some c → isSpace c = false := by
  intro c hc
  unfold trim at hc
  rw [List.head?_reverse] at hc
  obtain ⟨t, ht⟩ := List.dropWhile_suffix isSpace (l := (s.dropWhile isSpace).reverse)
  have hne : ((s.dropWhile isSpace).reverse.dropWhile isSpace) ≠ [] := by
    intro e; rw [e] at hc; simp at hc
  have h2 : (s.dropWhile isSpace).reverse.getLast? = some c := by
    rw [← ht, List.getLast?_append_of_ne_nil _ hne]; exact hc
  rw [List.getLast?_reverse] at h2
  have := List.head?_dropWhile_not isSpace s
  rw [h2] at this
  simpa using this

theorem trim_normalized {s : Str} (h1 : ∀ c ∈ s, isSpace c = true → c = ' ')
    (h2 : NoSpacePair s) : Normalized (trim s) :=
  ⟨trim_head s, trim_last s, fun c hc => h1 c ((trim_within s).subset hc),
    List.Chain'.infix h2 (trim_within s)⟩

theorem noSpacePair_apart {s : Str} (h : NoSpacePair s) (pre post : Str) (a b : Char)
    (e : s = pre ++ a :: b :: post) : ¬(isSpace a = true ∧ isSpace b = true) := by
  have hin : [a, b] <:+: s := ⟨pre, post, by simp [e]⟩
  have := List.Chain'.infix h hin
  simpa using this

theorem simplify_eq (text : Str) :
    simplify text
      = trim ((spaces.scan none (REPLACEMENTS.foldl applyRule text) 0).flatMap (segOut [' '])) := by
  unfold simplify
  simp only [replaceAll_eq]
  rfl

theorem trim_collapse_normalized (r : Str) :
    Normalized (trim ((spaces.scan none r 0).flatMap (segOut [' ']))) := by
  obtain ⟨h1, h2, _, _⟩ := collapse_facts r.length r none le_rfl
  exact trim_normalized h1 h2

/-- C3: the result of `simplify` is white-space-normalized: it neither starts nor ends
with white space, and every white-space character in it is a single space with no
white space next to it; the empty text gives the empty text. -/
theorem simplify_normalized (text : Str) :
    (∀ c, (simplify text).head? = some c → isSpace c = false)
      ∧ (∀ c, (simplify text).getLast? = some c → isSpace c = false)
      ∧ (∀ c ∈ simplify text, isSpace c = true → c = ' ')
      ∧ (∀ pre a b post, simplify text = pre ++ a :: b :: post →
          ¬(isSpace a = true ∧ isSpace b = true))
      ∧ simplify [] = [] := by
  have h5 : simplify [] = [] := by decide
  rw [simplify_eq text]
  generalize REPLACEMENTS.foldl applyRule text = r
  obtain ⟨h1, h2, h3, h4⟩ := trim_collapse_normalized r
  exact ⟨h1, h2, h3, fun pre a b post e => noSpacePair_apart h4 pre post a b e, h5⟩

/-! ## The orchestrator -/

theorem extractActions_ne_nil (text : Str) : extractActions text ≠ [] := by
  unfold extractActions
  simp only []
  split_ifs with h
  · intro e; rw [e] at h; exact h rfl
  · simp

/-- A global replacement by a string with ink keeps a string with ink so. -/
theorem scan_hasInk (r : RegExp) {repl : Str} (hr : HasInk repl) (s : Str) :
    ∀ (prev : Option Char) (k : Nat), HasInk (s.drop k) →
      HasInk ((r.scan prev s k).flatMap (segOut repl)) := by
  induction s with
  | nil =>
      intro prev k h
      obtain ⟨c, hc, _⟩ := h
      simp at hc
  | cons d ds ih =>
      intro prev k h
      cases k with
      | succ k =>
          rw [RegExp.scan]
          exact ih (some d) k (by simpa using h)
      | zero =>
          obtain ⟨x, hx, hrx⟩ := hr
          rw [RegExp.scan]
          cases hm : r.matchAt prev (d :: ds) with
          | none =>
              simp only [List.flatMap_cons, segOut]
              obtain ⟨c, hc, hcs⟩ := h
              rcases List.mem_cons.1 (by simpa using hc) with e | e
              · exact ⟨c, by simp [e], hcs⟩
              · obtain ⟨y, hy, hys⟩ := ih (some d) 0 ⟨c, by simpa using e, hcs⟩
                exact ⟨y, by simp [hy], hys⟩
          | some n =>
              cases n with
              | zero =>
                  simp only [List.flatMap_cons, segOut]
                  exact ⟨x, by simp [hx], hrx⟩
              | succ n =>
                  simp only [List.flatMap_cons, segOut]
                  exact ⟨x, by simp [hx], hrx⟩

theorem applyRule_hasInk {rule : Re × String} (hr : HasInk rule.2.toList) {s : Str}
    (h : HasInk s) : HasInk (applyRule s rule) := by
  unfold applyRule
  rw [replaceAll_eq]
  exact scan_hasInk _ hr s none 0 (by simpa using h)

theorem foldl_applyRule_hasInk (rules : List (Re × String))
    (hr : ∀ rule ∈ rules, HasInk rule.2.toList) :
    ∀ s : Str, HasInk s → HasInk (rules.foldl applyRule s) := by
  induction rules with
  | nil => intro s h; exact h
  | cons rule rules ih =>
      intro s h
      rw [List.foldl_cons]
      exact ih (fun q hq => hr q (List.mem_cons_of_mem _ hq)) _
        (applyRule_hasInk (hr rule (List.mem_cons_self _ _)) h)

theorem replacements_hasInk : ∀ rule ∈ REPLACEMENTS, HasInk rule.2.toList := by
  intro rule h
  simp only [REPLACEMENTS, List.mem_cons, List.mem_singleton, List.not_mem_nil, or_false] at h
  rcases h with h | h | h | h | h | h | h | h | h | h | h | h | h | h | h | h | h | h | h | h
    | h | h | h | h | h | h <;> subst h <;> exact ⟨_, List.mem_cons_self _ _, by decide⟩

theorem mem_dropWhile_of_ink {s : Str} {c : Char} (hc : c ∈ s) (h : isSpace c = false) :
    c ∈ s.dropWhile isSpace := by
  induction s with
  | nil => simp at hc
  | cons d ds ih =>
      rw [List.dropWhile_cons]
      split_ifs with hd
      · rcases List.mem_cons.1 hc with e | e
        · rw [e, hd] at h; exact Bool.noConfusion h
        · exact ih e
      · exact hc

theorem trim_hasInk {s : Str} (h : HasInk s) : HasInk (trim s) := by
  obtain ⟨c, hc, hs⟩ := h
  refine ⟨c, ?_, hs⟩
  unfold trim
  rw [List.mem_reverse]
  apply mem_dropWhile_of_ink _ hs
  rw [List.mem_reverse]
  exact mem_dropWhile_of_ink hc hs

theorem hasInk_of_trim_ne_nil {s : Str} (h : trim s ≠ []) : HasInk (trim s) := by
  cases e : trim s with
  | nil => exact absurd e h
  | cons c cs =>
      have := trim_head s c (by rw [e]; rfl)
      exact ⟨c, List.mem_cons_self _ _, this⟩

theorem collapse_hasInk {r : Str} (h : HasInk r) :
    HasInk ((spaces.scan none r 0).flatMap (segOut [' '])) := by
  obtain ⟨c, hc, hs⟩ := h
  obtain ⟨_, _, _, h4⟩ := collapse_facts r.length r none le_rfl
  exact ⟨c, h4 c hc hs, hs⟩

/-- A text with a character that is no white space is simplified to a non-empty text. -/
theorem simplify_ne_nil {text : Str} (h : HasInk text) : simplify text ≠ [] := by
  have h1 := foldl_applyRule_hasInk REPLACEMENTS replacements_hasInk text h
  rw [simplify_eq text]
  generalize REPLACEMENTS.foldl applyRule text = r at h1
  obtain ⟨c, hc, _⟩ := trim_hasInk (collapse_hasInk h1)
  exact List.ne_nil_of_mem hc

theorem buildOutput_simple (text : Str) (a : Audience) (t : Tone) (h : Bool) :
    (buildOutput text a t h).simple = simplify text := by
  simp only [buildOutput, buildOutputFromResult]

theorem buildOutput_actions (text : Str) (a : Audience) (t : Tone) (h : Bool) :
    (buildOutput text a t h).actions = extractActions (simplify text) := by
  simp only [buildOutput, buildOutputFromResult]

theorem renderLocal_lastOutput (c : Controls) (text banner : Str) (label after : String) :
    (renderLocal c text banner label after).lastOutput
      = some (buildOutput text c.audience c.tone c.highlight) := by
  simp only [renderLocal]

theorem renderLocal_outHtml (c : Controls) (text banner : Str) (label after : String) :
    (renderLocal c text banner label after).outHtml
      = banner ++ (buildOutput text c.audience c.tone c.highlight).html := by
  simp only [renderLocal]

theorem renderLocal_notes (c : Controls) (text banner : Str) (label after : String) :
    (renderLocal c text banner label after).translationNotes
      = label.toList ++ (intToStr (computeStats (simplify text)).readingEase ++ after.toList
        ++ "Actions found: ".toList
        ++ Nat.toDigits 10 (extractActions (simplify text)).length ++ ".".toList) := by
  simp only [renderLocal, statusText, buildOutput_simple, buildOutput_actions,
    List.append_assoc]

theorem renderOutput_failed (c : Controls) (remote : Remote)
    (hai : c.useAi = some true)
    (hfail : remote = .networkError ∨ (∃ body, remote = .response false body)
      ∨ remote = .response true none)
    (htext : trim c.note ≠ []) :
    renderOutput c remote
      = renderLocal c (trim c.note) fallbackBanner "Standard mode: clarity score " ". " := by
  have hne : (trim c.note).isEmpty = false := by
    cases e : trim c.note with
    | nil => exact absurd e htext
    | cons _ _ => rfl
  unfold renderOutput
  simp only [hne, hai, if_true, Bool.false_eq_true, if_false]
  rcases hfail with e | ⟨body, e⟩ | e <;> subst e <;> rfl

/-- C4: with the remote mode on and a failed remote call (a rejected `fetch`, an answer
that is not ok, or a body that does not parse), a note that is not empty after trimming
is rendered by the local pipeline: the result is `buildOutput` of the trimmed note, its
simple text and its actions are not empty, it is shown under the banner of the
fallback, and the status text starts with "Standard mode:". -/
theorem renderOutput_fallback (c : Controls) (remote : Remote)
    (hai : c.useAi = some true)
    (hfail : remote = .networkError ∨ (∃ body, remote = .response false body)
      ∨ remote = .response true none)
    (htext : trim c.note ≠ []) :
    (renderOutput c remote).lastOutput
        = some (buildOutput (trim c.note) c.audience c.tone c.highlight)
      ∧ (buildOutput (trim c.note) c.audience c.tone c.highlight).simple ≠ []
      ∧ (buildOutput (trim c.note) c.audience c.tone c.highlight).actions ≠ []
      ∧ (renderOutput c remote).outHtml
        = "<div class=\"result-card\">AI service unavailable. Using standard translation.</div>".toList
          ++ (buildOutput (trim c.note) c.audience c.tone c.highlight).html
      ∧ "Standard mode:".toList <+: (renderOutput c remote).translationNotes := by
  rw [renderOutput_failed c remote hai hfail htext, renderLocal_lastOutput,
    renderLocal_outHtml, renderLocal_notes, buildOutput_simple, buildOutput_actions]
  have hink := simplify_ne_nil (hasInk_of_trim_ne_nil htext)
  generalize trim c.note = text at hink ⊢
  generalize hs : simplify text = simple at hink ⊢
  have hact := extractActions_ne_nil simple
  generalize extractActions simple = actions at hact ⊢
  refine ⟨rfl, hink, hact, rfl, ?_⟩
  exact (show "Standard mode:".toList <+: "Standard mode: clarity score ".toList by
    decide).trans (List.prefix_append _ _)

set_option maxRecDepth 100000 in
/-- C4 at a concrete input: the service answers with status 500 to the note
"Pt w/ HTN. F/u in 2 weeks." -/
theorem renderOutput_fallback_witness :
    (renderOutput ⟨"Pt w/ HTN. F/u in 2 weeks.".toList, .adult, .warm, true, some true⟩
        (.response false none)).lastOutput
      = some (buildOutput (trim "Pt w/ HTN. F/u in 2 weeks.".toList) .adult .warm true)
    ∧ (buildOutput (trim "Pt w/ HTN. F/u in 2 weeks.".toList) .adult .warm true).simple
      = "the patient with high blood pressure. follow-up appointment in 2 weeks.".toList
    ∧ (buildOutput (trim "Pt w/ HTN. F/u in 2 weeks.".toList) .adult .warm true).actions
      = ["follow-up appointment in 2 weeks".toList]
    ∧ (renderOutput ⟨"Pt w/ HTN. F/u in 2 weeks.".toList, .adult, .warm, true, some true⟩
        (.response false none)).translationNotes
      = "Standard mode: clarity score 81. Actions found: 1.".toList :=
  ⟨(renderOutput_fallback
      ⟨"Pt w/ HTN. F/u in 2 weeks.".toList, .adult, .warm, true, some true⟩
      (.response false none) rfl (Or.inr (Or.inl ⟨none, rfl⟩)) (by decide)).1,
    by decide, by decide, by decide⟩

/-! ### The remote answer -/

theorem renderOutput_remote (c : Controls) (data : JVal)
    (hai : c.useAi = some true) (htext : trim c.note ≠ []) :
    renderOutput c (.response true (some data))
      = match remoteResult c (trim c.note) data with
        | some result =>
            { outHtml := result.html,
              translationNotes := statusText "AI mode: clarity score " ". " result,
              lastOutput := some result,
              metrics := computeStats c.note }
        | none => renderFallback c (trim c.note) := by
  have hne : (trim c.note).isEmpty = false := by
    cases e : trim c.note with
    | nil => exact absurd e htext
    | cons _ _ => rfl
  unfold renderOutput
  simp only [hne, hai, if_true, Bool.false_eq_true, if_false]

theorem remoteResult_of_ne_null (c : Controls) (text : Str) {data : JVal}
    (h : data ≠ .null) : remoteResult c text data = composeRemote c text data := by
  cases data <;> first | rfl | exact absurd rfl h

theorem asStrings_map_str (l : List Str) : asStrings (l.map JVal.str) = some l := by
  induction l with
  | nil => rfl
  | cons s l ih => simp only [List.map_cons, asStrings, asString, ih]

theorem strings_of_items {items : List JVal} (h : ∀ v ∈ items, ∃ s, v = JVal.str s) :
    ∃ ss : List Str, items = ss.map JVal.str := by
  induction items with
  | nil => exact ⟨[], rfl⟩
  | cons v vs ih =>
      obtain ⟨s, rfl⟩ := h v (List.mem_cons_self _ _)
      obtain ⟨ss, rfl⟩ := ih fun w hw => h w (List.mem_cons_of_mem _ hw)
      exact ⟨s :: ss, rfl⟩

theorem asStrings_none {items : List JVal} {v : JVal} (hv : v ∈ items)
    (hs : ¬∃ s, v = JVal.str s) : asStrings items = none := by
  induction items with
  | nil => simp at hv
  | cons w ws ih =>
      rcases List.mem_cons.1 hv with e | e
      · subst e
        cases v with
        | str s => exact absurd ⟨s, rfl⟩ hs
        | null => rfl
        | bool _ => rfl
        | num _ => rfl
        | arr _ => rfl
        | obj _ => rfl
      · simp only [asStrings, ih e]
        cases asString (some w) <;> rfl

theorem truthy_str (s : Str) : truthy (some (.str s)) = true ↔ s ≠ [] := by
  cases s <;> simp [truthy]

theorem remoteSimple_simple {data : JVal} {s : Str}
    (h : data.field "simple" = some (.str s)) (hs : s ≠ []) :
    remoteSimple data = some (.str s) := by
  have ht : truthy (some (JVal.str s)) = true := (truthy_str s).2 hs
  simp only [remoteSimple, jsOr, h, ht, if_true]

theorem remoteSimple_output {data : JVal} {o : Str}
    (h1 : truthy (data.field "simple") = false)
    (h : data.field "output" = some (.str o)) (ho : o ≠ []) :
    remoteSimple data = some (.str o) := by
  have ht : truthy (some (JVal.str o)) = true := (truthy_str o).2 ho
  simp only [remoteSimple, jsOr, h1, h, ht, if_true, Bool.false_eq_true, if_false]

theorem remoteSimple_blank {data : JVal}
    (h1 : truthy (data.field "simple") = false) (h2 : truthy (data.field "output") = false) :
    remoteSimple data = some (.str []) := by
  simp only [remoteSimple, jsOr, h1, h2, Bool.false_eq_true, if_false]

/-- In a well-typed body `data.simple || data.output || ""` is a string, and it is
truthy only when it is not empty. -/
theorem remoteSimple_text {data : JVal} (h : TextBody data) :
    ∃ s, remoteSimple data = some (.str s) := by
  obtain ⟨_, hs, ho, _⟩ := h
  by_cases h1 : truthy (data.field "simple") = true
  · obtain ⟨s, e⟩ := hs h1
    rw [e] at h1
    exact ⟨s, remoteSimple_simple e ((truthy_str s).1 h1)⟩
  · have h1f : truthy (data.field "simple") = false := by simpa using h1
    by_cases h2 : truthy (data.field "output") = true
    · obtain ⟨o, e⟩ := ho h1f h2
      rw [e] at h2
      exact ⟨o, remoteSimple_output h1f e ((truthy_str o).1 h2)⟩
    · exact ⟨[], remoteSimple_blank h1f (by simpa using h2)⟩

theorem remoteActions_array {data : JVal} {items : List JVal}
    (h : data.field "actions" = some (.arr items)) (hne : items ≠ []) :
    remoteActions data = some items := by
  cases items with
  | nil => exact absurd rfl hne
  | cons a as => simp only [remoteActions, h]

theorem remoteActions_else {data : JVal}
    (h : ¬∃ a as, data.field "actions" = some (.arr (a :: as))) :
    remoteActions data
      = (asString (remoteSimple data)).map fun s => (extractActions s).map JVal.str := by
  unfold remoteActions
  split
  · rename_i a as e
    exact absurd ⟨a, as, e⟩ h
  · rfl

theorem asString_or_text (s text : Str) :
    asString (jsOr (some (.str s)) (some (.str text)))
      = some (if s = [] then text else s) := by
  cases s <;> simp [jsOr, truthy, asString]

theorem composeRemote_eq {c : Controls} {text : Str} {data : JVal} {s : Str}
    {items : List JVal} {acts : List Str}
    (hs : remoteSimple data = some (.str s)) (ha : remoteActions data = some items)
    (hi : items = acts.map JVal.str) :
    composeRemote c text data
      = some (buildOutputFromResult (if s = [] then text else s) acts
          c.audience c.tone c.highlight) := by
  unfold composeRemote
  rw [ha, hs, asString_or_text, hi]
  simp only [asStrings_map_str]

/-- From a well-typed body a result is composed: of the string
`data.simple || data.output || ""`, or of the note when that is empty, and of the items of
`data.actions`, or of the actions found in that string when there are none. -/
theorem composeRemote_text (c : Controls) (text : Str) {data : JVal} (h : TextBody data) :
    ∃ (s : Str) (acts : List Str), remoteSimple data = some (.str s)
      ∧ composeRemote c text data
          = some (buildOutputFromResult (if s = [] then text else s) acts
              c.audience c.tone c.highlight)
      ∧ (∀ items, data.field "actions" = some (.arr items) → items ≠ [] →
          acts.map JVal.str = items)
      ∧ ((¬∃ a as, data.field "actions" = some (.arr (a :: as))) →
          acts = extractActions s) := by
  obtain ⟨s, hs⟩ := remoteSimple_text h
  by_cases harr : ∃ a as, data.field "actions" = some (.arr (a :: as))
  · obtain ⟨a, as, e⟩ := harr
    obtain ⟨acts, hacts⟩ := strings_of_items (h.2.2.2 _ e)
    refine ⟨s, acts, hs, composeRemote_eq hs (remoteActions_array e (by simp)) hacts, ?_, ?_⟩
    · intro items hi _
      rw [e] at hi
      cases hi
      exact hacts.symm
    · intro hno
      exact absurd ⟨a, as, e⟩ hno
  · refine ⟨s, extractActions s, hs, composeRemote_eq hs ?_ rfl, ?_, fun _ => rfl⟩
    · rw [remoteActions_else harr, hs]
      rfl
    · intro items hi hne
      cases items with
      | nil => exact absurd rfl hne
      | cons a as => exact absurd ⟨a, as, hi⟩ harr

theorem asString_none {x : Option JVal} (h : ¬∃ s, x = some (.str s)) : asString x = none := by
  cases x with
  | none => rfl
  | some v =>
      cases v with
      | str s => exact absurd ⟨s, rfl⟩ h
      | null => rfl
      | bool _ => rfl
      | num _ => rfl
      | arr _ => rfl
      | obj _ => rfl

theorem composeRemote_no_text {c : Controls} {text : Str} {data : JVal}
    (ht : truthy (remoteSimple data) = true) (hs : ¬∃ s, remoteSimple data = some (.str s)) :
    composeRemote c text data = none := by
  unfold composeRemote
  have e : jsOr (remoteSimple data) (some (.str text)) = remoteSimple data := by
    simp only [jsOr, ht, if_true]
  rw [e, asString_none hs]
  cases remoteActions data <;> rfl

theorem composeRemote_bad_item {c : Controls} {text : Str} {data : JVal}
    {items : List JVal} {v : JVal} (e : data.field "actions" = some (.arr items))
    (hv : v ∈ items) (hs : ¬∃ s, v = JVal.str s) :
    composeRemote c text data = none := by
  have hne : items ≠ [] := List.ne_nil_of_mem hv
  unfold composeRemote
  rw [remoteActions_array e hne]
  cases asString (jsOr (remoteSimple data) (some (.str text))) with
  | none => rfl
  | some t => simp only [asStrings_none hv hs]

/-- From a body that is not well typed no result is composed: a `TypeError` is thrown. -/
theorem remoteResult_none (c : Controls) (text : Str) {data : JVal} (h : ¬TextBody data) :
    remoteResult c text data = none := by
  by_cases hnull : data = .null
  · subst hnull; rfl
  rw [remoteResult_of_ne_null c text hnull]
  by_cases h1 : truthy (data.field "simple") = true
  · by_cases hs : ∃ s, data.field "simple" = some (.str s)
    · by_cases ha : ∀ items, data.field "actions" = some (.arr items) →
          ∀ v ∈ items, ∃ s, v = JVal.str s
      · exact absurd (show TextBody data from
          ⟨hnull, fun _ => hs, fun hf _ => absurd h1 (by rw [hf]; decide), ha⟩) h
      · push_neg at ha
        obtain ⟨items, e, v, hv, hno⟩ := ha
        exact composeRemote_bad_item e hv (by push_neg; exact hno)
    · have e : remoteSimple data = data.field "simple" := by
        simp only [remoteSimple, jsOr, h1, if_true]
      exact composeRemote_no_text (by rw [e]; exact h1) (by rw [e]; exact hs)
  · have h1f : truthy (data.field "simple") = false := by simpa using h1
    by_cases h2 : truthy (data.field "output") = true
    · by_cases ho : ∃ o, data.field "output" = some (.str o)
      · by_cases ha : ∀ items, data.field "actions" = some (.arr items) →
            ∀ v ∈ items, ∃ s, v = JVal.str s
        · exact absurd (show TextBody data from
            ⟨hnull, fun ht => absurd ht h1, fun _ _ => ho, ha⟩) h
        · push_neg at ha
          obtain ⟨items, e, v, hv, hno⟩ := ha
          exact composeRemote_bad_item e hv (by push_neg; exact hno)
      · have e : remoteSimple data = data.field "output" := by
          simp only [remoteSimple, jsOr, h1f, h2, if_true, Bool.false_eq_true, if_false]
        exact composeRemote_no_text (by rw [e]; exact h2) (by rw [e]; exact ho)
    · by_cases ha : ∀ items, data.field "actions" = some (.arr items) →
          ∀ v ∈ items, ∃ s, v = JVal.str s
      · exact absurd (show TextBody data from
          ⟨hnull, fun ht => absurd ht h1, fun _ ht => absurd ht h2, ha⟩) h
      · push_neg at ha
        obtain ⟨items, e, v, hv, hno⟩ := ha
        exact composeRemote_bad_item e hv (by push_neg; exact hno)

theorem buildOutputFromResult_simple (simple : Str) (actions : List Str) (a : Audience)
    (t : Tone) (h : Bool) : (buildOutputFromResult simple actions a t h).simple = simple := by
  simp only [buildOutputFromResult]

theorem buildOutputFromResult_actions (simple : Str) (actions : List Str) (a : Audience)
    (t : Tone) (h : Bool) : (buildOutputFromResult simple actions a t h).actions = actions := by
  simp only [buildOutputFromResult]

set_option maxRecDepth 100000 in
/-- C5 fails as stated.  For the note "Take meds." and a successful answer with the body
`{}`, the simple text of the result is the note, not the empty string, and the actions
are not `extractActions` of that simple text.  For the note "Call back." and the body
`{"simple": "Rest.", "actions": [1]}`, escaping the item `1` throws, and the result is
that of the local pipeline: its actions are not `data.actions` and its simple text is
not `data.simple`. -/
theorem renderOutput_remote_empty_counterexample :
    (renderOutput ⟨"Take meds.".toList, .adult, .warm, false, some true⟩
        (.response true (some (.obj [])))).lastOutput.map Output.simple
      = some "Take meds.".toList
    ∧ (renderOutput ⟨"Take meds.".toList, .adult, .warm, false, some true⟩
        (.response true (some (.obj [])))).lastOutput.map Output.simple
      ≠ some []
    ∧ (renderOutput ⟨"Take meds.".toList, .adult, .warm, false, some true⟩
        (.response true (some (.obj [])))).lastOutput.map Output.actions
      = some ["Ask your care team to explain any parts you do not understand.".toList]
    ∧ extractActions "Take meds.".toList = ["Take meds".toList]
    ∧ (renderOutput ⟨"Call back.".toList, .adult, .warm, false, some true⟩
        (.response true (some (.obj [("simple", .str "Rest.".toList),
          ("actions", .arr [.num false])])))).lastOutput
      = some (buildOutput "Call back.".toList .adult .warm false)
    ∧ (buildOutput "Call back.".toList .adult .warm false).simple = "Call back.".toList
    ∧ (buildOutput "Call back.".toList .adult .warm false).actions = ["Call back".toList] := by
  refine ⟨by decide, by decide, by decide, by decide, by decide, by decide, by decide⟩

/-- C5, amended: on a successful remote answer to a note that is not empty after
trimming, when the body `data` is well typed (it is not `null`, the one of `data.simple`
and `data.output` that is used is a string, and the items of an array `data.actions` are
strings), the result is composed by `buildOutputFromResult`; its simple text is
`data.simple` when that is non-empty, else `data.output` when that is non-empty, else
the trimmed note; its actions are `data.actions` when that is a non-empty array, else
`extractActions` of `data.simple`, of `data.output`, or of the empty string, in that
order of preference (the last gives the one fallback sentence).  For any other body a
`TypeError` is thrown and the `catch` block renders the local result. -/
theorem renderOutput_remote_success (c : Controls) (data : JVal)
    (hai : c.useAi = some true) (htext : trim c.note ≠ []) :
    (TextBody data →
      ∃ result : Output,
        (renderOutput c (.response true (some data))).lastOutput = some result
        ∧ result = buildOutputFromResult result.simple result.actions
            c.audience c.tone c.highlight
        ∧ (∀ s, data.field "simple" = some (.str s) → s ≠ [] → result.simple = s)
        ∧ (truthy (data.field "simple") = false →
            ∀ o, data.field "output" = some (.str o) → o ≠ [] → result.simple = o)
        ∧ (truthy (data.field "simple") = false → truthy (data.field "output") = false →
            result.simple = trim c.note)
        ∧ (∀ items, data.field "actions" = some (.arr items) → items ≠ [] →
            result.actions.map JVal.str = items)
        ∧ ((¬∃ a as, data.field "actions" = some (.arr (a :: as))) →
            (∀ s, data.field "simple" = some (.str s) → s ≠ [] →
              result.actions = extractActions s)
            ∧ (truthy (data.field "simple") = false →
                ∀ o, data.field "output" = some (.str o) → o ≠ [] →
                  result.actions = extractActions o)
            ∧ (truthy (data.field "simple") = false →
                truthy (data.field "output") = false →
                result.actions = extractActions []
                ∧ result.actions
                  = ["Ask your care team to explain any parts you do not understand.".toList])))
    ∧ (¬TextBody data →
        renderOutput c (.response true (some data)) = renderFallback c (trim c.note)
        ∧ (renderOutput c (.response true (some data))).lastOutput
          = some (buildOutput (trim c.note) c.audience c.tone c.highlight)) := by
  constructor
  · intro hbody
    obtain ⟨s, acts, hs, hcomp, hA1, hA2⟩ := composeRemote_text c (trim c.note) hbody
    have hF1 : ∀ s2, data.field "simple" = some (.str s2) → s2 ≠ [] → s = s2 := by
      intro s2 e hne
      have := remoteSimple_simple e hne
      rw [hs] at this
      cases this; rfl
    have hF2 : truthy (data.field "simple") = false →
        ∀ o, data.field "output" = some (.str o) → o ≠ [] → s = o := by
      intro h1 o e hne
      have := remoteSimple_output h1 e hne
      rw [hs] at this
      cases this; rfl
    have hF3 : truthy (data.field "simple") = false →
        truthy (data.field "output") = false → s = [] := by
      intro h1 h2
      have := remoteSimple_blank h1 h2
      rw [hs] at this
      cases this; rfl
    have hlast : (renderOutput c (.response true (some data))).lastOutput
        = some (buildOutputFromResult (if s = [] then trim c.note else s) acts
            c.audience c.tone c.highlight) := by
      rw [renderOutput_remote c data hai htext, remoteResult_of_ne_null _ _ hbody.1, hcomp]
    refine ⟨_, hlast, ?_, ?_, ?_, ?_, ?_, ?_⟩
    · rw [buildOutputFromResult_simple, buildOutputFromResult_actions]
    · intro s2 e hne
      rw [buildOutputFromResult_simple, hF1 s2 e hne, if_neg hne]
    · intro h1 o e hne
      rw [buildOutputFromResult_simple, hF2 h1 o e hne, if_neg hne]
    · intro h1 h2
      rw [buildOutputFromResult_simple, hF3 h1 h2, if_pos rfl]
    · intro items e hne
      rw [buildOutputFromResult_actions]
      exact hA1 items e hne
    · intro hno
      rw [buildOutputFromResult_actions, hA2 hno]
      refine ⟨?_, ?_, ?_⟩
      · intro s2 e hne
        rw [hF1 s2 e hne]
      · intro h1 o e hne
        rw [hF2 h1 o e hne]
      · intro h1 h2
        rw [hF3 h1 h2]
        exact ⟨rfl, by decide⟩
  · intro hbody
    have hpage : renderOutput c (.response true (some data))
        = renderFallback c (trim c.note) := by
      rw [renderOutput_remote c data hai htext, remoteResult_none _ _ hbody]
    refine ⟨hpage, ?_⟩
    rw [hpage]
    exact renderLocal_lastOutput c _ _ _ _

set_option maxRecDepth 100000 in
/-- C5, amended, at a concrete input: the service answers the note "Pt w/ HTN." with a
simple text and an empty array of actions. -/
theorem renderOutput_remote_success_witness :
    ∃ result : Output,
      (renderOutput ⟨"Pt w/ HTN.".toList, .teen, .coach, false, some true⟩
        (.response true (some (.obj
          [("simple", .str "Rest now. You have high blood pressure.".toList),
           ("actions", .arr [])])))).lastOutput = some result
      ∧ result.simple = "Rest now. You have high blood pressure.".toList
      ∧ result.actions = ["Rest now".toList] := by
  have hbody : TextBody (.obj
      [("simple", .str "Rest now. You have high blood pressure.".toList),
       ("actions", .arr [])]) := by
    refine ⟨fun h => JVal.noConfusion h, fun _ => ⟨_, rfl⟩, fun h => absurd h (by decide), ?_⟩
    intro items e v hv
    have e2 : JVal.field (.obj
        [("simple", .str "Rest now. You have high blood pressure.".toList),
         ("actions", .arr [])]) "actions" = some (.arr []) := rfl
    rw [e2] at e
    cases e
    cases hv
  obtain ⟨result, h1, _, h3, _, _, _, h7⟩ := (renderOutput_remote_success
    ⟨"Pt w/ HTN.".toList, .teen, .coach, false, some true⟩
    (.obj [("simple", .str "Rest now. You have high blood pressure.".toList),
      ("actions", .arr [])])
    rfl (by decide)).1 hbody
  refine ⟨result, h1, h3 _ rfl (by decide), ?_⟩
  have hno : ¬∃ a as, JVal.field (.obj
      [("simple", .str "Rest now. You have high blood pressure.".toList),
       ("actions", .arr [])]) "actions" = some (.arr (a :: as)) := by
    rintro ⟨a, as, e⟩
    have e2 : JVal.field (.obj
        [("simple", .str "Rest now. You have high blood pressure.".toList),
         ("actions", .arr [])]) "actions" = some (.arr []) := rfl
    rw [e2] at e
    cases e
  rw [(h7 hno).1 _ rfl (by decide)]
  decide

/-! ## Highlighting -/

theorem markTerm_eq (html : Str) (term : String) :
    markTerm html term = ((boundedLit term.toList).scan none html 0).flatMap segMark := by
  unfold markTerm replaceAllWith
  congr 1

theorem scan_raw {r : RegExp} {prev : Option Char} {c : Char} {cs : Str}
    (h : r.matchAt prev (c :: cs) = none) :
    r.scan prev (c :: cs) 0 = .raw c :: r.scan (some c) cs 0 := by
  rw [RegExp.scan, h]

/-- A match of `\bl\b` is a match of the literal `l`. -/
theorem boundedLit_matchAt {l : Str} {prev : Option Char} {s : Str} {n : Nat}
    (h : (boundedLit l).matchAt prev s = some n) :
    litPrefix true l s = true ∧ n = l.length := by
  have hm := List.mem_of_mem_head? h
  simp only [boundedLit, Re.lens, List.mem_flatMap, List.mem_map] at hm
  obtain ⟨a, ha, b, ⟨k, hk, j, hj, rfl⟩, rfl⟩ := hm
  split_ifs at ha with h1
  · simp only [List.mem_singleton] at ha
    subst ha
    simp only [List.drop_zero] at hk
    split_ifs at hk with h2
    · simp only [List.mem_singleton] at hk
      subst hk
      split_ifs at hj with h3
      · simp only [List.mem_singleton] at hj
        subst hj
        exact ⟨h2, by simp⟩
      · simp at hj
    · simp at hk
  · simp at ha

theorem litPrefix_cons_cons (ic : Bool) (p c : Char) (ps cs : Str) :
    litPrefix ic (p :: ps) (c :: cs) = (chEq ic p c && litPrefix ic ps cs) := rfl

theorem boundedLit_matchAt_nil {l : Str} (hl : termOk l = true) (prev : Option Char) :
    (boundedLit l).matchAt prev [] = none := by
  cases hm : (boundedLit l).matchAt prev [] with
  | none => rfl
  | some n =>
      have := (boundedLit_matchAt hm).1
      cases l with
      | nil => simp [termOk] at hl
      | cons p ps => simp [litPrefix] at this

theorem boundedLit_matchAt_tag {l : Str} (hl : termOk l = true) (prev : Option Char)
    {x : Char} (hx : x ∈ "<mark>/".toList) (cs : Str) :
    (boundedLit l).matchAt prev (x :: cs) = none := by
  cases hm : (boundedLit l).matchAt prev (x :: cs) with
  | none => rfl
  | some n =>
      have h1 := (boundedLit_matchAt hm).1
      cases l with
      | nil => simp [termOk] at hl
      | cons p ps =>
          rw [litPrefix_cons_cons, Bool.and_eq_true] at h1
          simp only [termOk, Bool.and_eq_true, List.all_eq_true] at hl
          have := hl.1 x hx
          rw [h1.1] at this
          exact absurd this (by decide)

theorem render_cons_ch (c : Char) (t : List Tok) : render (.ch c :: t) = c :: render t := rfl

theorem render_cons_op (t : List Tok) :
    render (.op :: t) = '<' :: 'm' :: 'a' :: 'r' :: 'k' :: '>' :: render t := rfl

theorem render_cons_cl (t : List Tok) :
    render (.cl :: t) = '<' :: '/' :: 'm' :: 'a' :: 'r' :: 'k' :: '>' :: render t := rfl

theorem render_map_ch (y : Str) (t : List Tok) : render (y.map Tok.ch ++ t) = y ++ render t := by
  induction y with
  | nil => rfl
  | cons c y ih => simp only [List.map_cons, List.cons_append, render_cons_ch, ih]

theorem chars_cons_ch (c : Char) (t : List Tok) : chars (.ch c :: t) = c :: chars t := rfl

theorem tokBalanced_cons_ch (d : Nat) (c : Char) (t : List Tok) :
    tokBalanced d (.ch c :: t) = tokBalanced d t := rfl

theorem chars_map_ch (y : Str) (t : List Tok) : chars (y.map Tok.ch ++ t) = y ++ chars t := by
  induction y with
  | nil => rfl
  | cons c y ih => simp only [List.map_cons, List.cons_append, chars_cons_ch, ih]

theorem tokBalanced_map_ch (d : Nat) (y : Str) (t : List Tok) :
    tokBalanced d (y.map Tok.ch ++ t) = tokBalanced d t := by
  induction y with
  | nil => rfl
  | cons c y ih => simp only [List.map_cons, List.cons_append, tokBalanced_cons_ch, ih]

/-- Where a literal without a character matching `<` matches, there are as many pieces
of text as the literal is long. -/
theorem litPrefix_render {l : Str} (hl : ∀ q ∈ l, chEq true q '<' = false) :
    ∀ toks : List Tok, litPrefix true l (render toks) = true →
      ∃ (y : Str) (t : List Tok), toks = y.map Tok.ch ++ t ∧ y.length = l.length := by
  induction l with
  | nil => intro toks _; exact ⟨[], toks, rfl, rfl⟩
  | cons p ps ih =>
      intro toks h
      have hp := hl p (List.mem_cons_self _ _)
      cases toks with
      | nil => simp [render, litPrefix] at h
      | cons tok t =>
          cases tok with
          | ch c =>
              rw [render_cons_ch, litPrefix_cons_cons, Bool.and_eq_true] at h
              obtain ⟨y, t2, e, hy⟩ := ih (fun q hq => hl q (List.mem_cons_of_mem _ hq)) t h.2
              exact ⟨c :: y, t2, by simp [e], by simp [hy]⟩
          | op =>
              rw [render_cons_op, litPrefix_cons_cons, hp] at h
              simp at h
          | cl =>
              rw [render_cons_cl, litPrefix_cons_cons, hp] at h
              simp at h

theorem noLt_tail {tok : Tok} {t : List Tok} (h : NoLt (tok :: t)) : NoLt t :=
  fun c hc => h c (List.mem_cons_of_mem _ hc)

theorem noLt_append_right {a b : List Tok} (h : NoLt (a ++ b)) : NoLt b :=
  fun c hc => h c (List.mem_append_right _ hc)

theorem noLt_cons {tok : Tok} {t : List Tok} (h1 : ∀ c, tok = .ch c → c ≠ '<')
    (h2 : NoLt t) : NoLt (tok :: t) := by
  intro c hc
  rcases List.mem_cons.1 hc with e | e
  · exact h1 c e.symm
  · exact h2 c e

/-- Scanning over an opening tag: no term matches in it. -/
theorem scan_op {l : Str} (hl : termOk l = true) (prev : Option Char) (t : List Tok) :
    ((boundedLit l).scan prev (render (.op :: t)) 0).flatMap segMark
      = "<mark>".toList ++ ((boundedLit l).scan (some '>') (render t) 0).flatMap segMark := by
  rw [render_cons_op,
    scan_raw (boundedLit_matchAt_tag hl _ (by decide) _),
    scan_raw (boundedLit_matchAt_tag hl _ (by decide) _),
    scan_raw (boundedLit_matchAt_tag hl _ (by decide) _),
    scan_raw (boundedLit_matchAt_tag hl _ (by decide) _),
    scan_raw (boundedLit_matchAt_tag hl _ (by decide) _),
    scan_raw (boundedLit_matchAt_tag hl _ (by decide) _)]
  rfl

/-- Scanning over a closing tag: no term matches in it. -/
theorem scan_cl {l : Str} (hl : termOk l = true) (prev : Option Char) (t : List Tok) :
    ((boundedLit l).scan prev (render (.cl :: t)) 0).flatMap segMark
      = "</mark>".toList ++ ((boundedLit l).scan (some '>') (render t) 0).flatMap segMark := by
  rw [render_cons_cl,
    scan_raw (boundedLit_matchAt_tag hl _ (by decide) _),
    scan_raw (boundedLit_matchAt_tag hl _ (by decide) _),
    scan_raw (boundedLit_matchAt_tag hl _ (by decide) _),
    scan_raw (boundedLit_matchAt_tag hl _ (by decide) _),
    scan_raw (boundedLit_matchAt_tag hl _ (by decide) _),
    scan_raw (boundedLit_matchAt_tag hl _ (by decide) _),
    scan_raw (boundedLit_matchAt_tag hl _ (by decide) _)]
  rfl

/-- Scanning at a match: it covers pieces of text only, and the scan resumes after them. -/
theorem scan_hit {l : Str} (hl : termOk l = true) {prev : Option Char} {c : Char}
    {t : List Tok} {n : Nat} (hm : (boundedLit l).matchAt prev (c :: render t) = some n) :
    ∃ (y : Str) (t2 : List Tok) (prev2 : Option Char), t = y.map Tok.ch ++ t2
      ∧ ((boundedLit l).scan prev (render (.ch c :: t)) 0).flatMap segMark
        = "<mark>".toList ++ (c :: y) ++ "</mark>".toList
          ++ ((boundedLit l).scan prev2 (render t2) 0).flatMap segMark := by
  obtain ⟨h1, h2⟩ := boundedLit_matchAt hm
  have hlt : ∀ q ∈ l, chEq true q '<' = false := by
    cases l with
    | nil => simp [termOk] at hl
    | cons p ps =>
        simp only [termOk, Bool.and_eq_true, List.all_eq_true] at hl
        intro q hq
        simpa using hl.2 q hq
  obtain ⟨y0, t2, e, hy⟩ := litPrefix_render hlt (.ch c :: t) (by rw [render_cons_ch]; exact h1)
  cases y0 with
  | nil =>
      cases l with
      | nil => simp [termOk] at hl
      | cons p ps => simp at hy
  | cons c0 y =>
      simp only [List.map_cons, List.cons_append, List.cons.injEq, Tok.ch.injEq] at e
      obtain ⟨rfl, rfl⟩ := e
      refine ⟨y, t2, prevAt (some c) (render (y.map Tok.ch ++ t2)) y.length, rfl, ?_⟩
      have hn : n = y.length + 1 := by rw [h2, ← hy]; rfl
      subst hn
      rw [render_cons_ch, RegExp.scan, hm]
      dsimp only
      have hlen : y.length ≤ (render (y.map Tok.ch ++ t2)).length := by
        rw [render_map_ch]; simp
      rw [scan_skip _ _ _ _ hlen]
      simp only [List.flatMap_cons, segMark]
      congr 1
      · rw [render_map_ch]
        simp
      · rw [render_map_ch]
        simp

/-- One step of `highlightTerms` on a tagged text: it inserts balanced tags around
pieces of text and changes nothing else. -/
theorem scan_tokens {l : Str} (hl : termOk l = true) (n : Nat) :
    ∀ (toks : List Tok) (prev : Option Char), toks.length ≤ n → NoLt toks →
      ∃ toks2 : List Tok, NoLt toks2
        ∧ ((boundedLit l).scan prev (render toks) 0).flatMap segMark = render toks2
        ∧ chars toks2 = chars toks
        ∧ ∀ d, tokBalanced d toks2 = tokBalanced d toks := by
  induction n with
  | zero =>
      intro toks prev hlen _
      have : toks = [] := List.length_eq_zero.1 (Nat.le_zero.1 hlen)
      subst this
      refine ⟨[], fun c hc => by simp at hc, ?_, rfl, fun _ => rfl⟩
      show ((boundedLit l).scan prev [] 0).flatMap segMark = []
      rw [RegExp.scan, boundedLit_matchAt_nil hl]
      rfl
  | succ n ih =>
      intro toks prev hlen hno
      cases toks with
      | nil =>
          refine ⟨[], fun c hc => by simp at hc, ?_, rfl, fun _ => rfl⟩
          show ((boundedLit l).scan prev [] 0).flatMap segMark = []
          rw [RegExp.scan, boundedLit_matchAt_nil hl]
          rfl
      | cons tok t =>
          have ht : t.length ≤ n := by simpa using hlen
          cases tok with
          | op =>
              obtain ⟨t3, h1, h2, h3, h4⟩ := ih t (some '>') ht (noLt_tail hno)
              refine ⟨.op :: t3, noLt_cons (fun c e => by cases e) h1, ?_, h3, ?_⟩
              · rw [scan_op hl, h2]; rfl
              · intro d; exact h4 (d + 1)
          | cl =>
              obtain ⟨t3, h1, h2, h3, h4⟩ := ih t (some '>') ht (noLt_tail hno)
              refine ⟨.cl :: t3, noLt_cons (fun c e => by cases e) h1, ?_, h3, ?_⟩
              · rw [scan_cl hl, h2]; rfl
              · intro d
                show (d != 0 && tokBalanced (d - 1) t3) = (d != 0 && tokBalanced (d - 1) t)
                rw [h4]
          | ch c =>
              have hc : c ≠ '<' := hno c (List.mem_cons_self _ _)
              cases hm : (boundedLit l).matchAt prev (c :: render t) with
              | none =>
                  obtain ⟨t3, h1, h2, h3, h4⟩ := ih t (some c) ht (noLt_tail hno)
                  refine ⟨.ch c :: t3, noLt_cons (fun x e => by cases e; exact hc) h1,
                    ?_, ?_, ?_⟩
                  · rw [render_cons_ch, scan_raw hm, render_cons_ch, ← h2]; rfl
                  · rw [chars_cons_ch, chars_cons_ch, h3]
                  · intro d; rw [tokBalanced_cons_ch, tokBalanced_cons_ch, h4]
              | some k =>
                  obtain ⟨y, t2, prev2, e, hscan⟩ := scan_hit hl hm
                  subst e
                  have ht2 : t2.length ≤ n := by
                    simp at ht; omega
                  have hno2 : NoLt t2 := noLt_append_right (noLt_tail hno)
                  obtain ⟨t3, h1, h2, h3, h4⟩ := ih t2 prev2 ht2 hno2
                  refine ⟨.op :: ((c :: y).map Tok.ch ++ .cl :: t3), ?_, ?_, ?_, ?_⟩
                  · intro x hx
                    rcases List.mem_cons.1 hx with e1 | e1
                    · cases e1
                    · rcases List.mem_append.1 e1 with e2 | e2
                      · apply hno x
                        rw [List.map_cons] at e2
                        rcases List.mem_cons.1 e2 with e3 | e3
                        · rw [e3]; exact List.mem_cons_self _ _
                        · exact List.mem_cons_of_mem _ (List.mem_append_left _ e3)
                      · rcases List.mem_cons.1 e2 with e3 | e3
                        · cases e3
                        · exact h1 x e3
                  · rw [hscan, h2, render_cons_op, render_map_ch, render_cons_cl]
                    simp
                  · show chars ((c :: y).map Tok.ch ++ .cl :: t3) = _
                    rw [chars_map_ch, chars_cons_ch, chars_map_ch]
                    show c :: y ++ chars t3 = _
                    rw [h3]; rfl
                  · intro d
                    show tokBalanced (d + 1) ((c :: y).map Tok.ch ++ .cl :: t3) = _
                    rw [tokBalanced_map_ch, tokBalanced_cons_ch, tokBalanced_map_ch]
                    show (d + 1 != 0 && tokBalanced (d + 1 - 1) t3) = _
                    simp [h4]

theorem markTags_matchAt_nil (prev : Option Char) : markTags.matchAt prev [] = none := rfl

theorem markTags_matchAt_text (prev : Option Char) {c : Char} (hc : c ≠ '<') (cs : Str) :
    markTags.matchAt prev (c :: cs) = none := by
  have h1 : litPrefix false "<mark>".toList (c :: cs) = false := by
    show (chEq false '<' c && _) = false
    simp [chEq, Ne.symm hc]
  have h2 : litPrefix false "</mark>".toList (c :: cs) = false := by
    show (chEq false '<' c && _) = false
    simp [chEq, Ne.symm hc]
  simp only [markTags, RegExp.matchAt, Re.lens, lit, h1, h2]
  rfl

theorem markTags_matchAt_op (prev : Option Char) (cs : Str) :
    markTags.matchAt prev ('<' :: 'm' :: 'a' :: 'r' :: 'k' :: '>' :: cs) = some 6 := rfl

theorem markTags_matchAt_cl (prev : Option Char) (cs : Str) :
    markTags.matchAt prev ('<' :: '/' :: 'm' :: 'a' :: 'r' :: 'k' :: '>' :: cs) = some 7 := rfl

/-- Deleting the tags of a tagged text leaves its text. -/
theorem stripMarks_render (toks : List Tok) (hno : NoLt toks) :
    ∀ prev, (markTags.scan prev (render toks) 0).flatMap (segOut []) = chars toks := by
  induction toks with
  | nil =>
      intro prev
      show (markTags.scan prev [] 0).flatMap (segOut []) = []
      rw [RegExp.scan, markTags_matchAt_nil]
      rfl
  | cons tok t ih =>
      intro prev
      have iht := ih (noLt_tail hno)
      cases tok with
      | ch c =>
          have hc : c ≠ '<' := hno c (List.mem_cons_self _ _)
          rw [render_cons_ch, scan_raw (markTags_matchAt_text prev hc _), chars_cons_ch,
            ← iht (some c)]
          rfl
      | op =>
          rw [render_cons_op, RegExp.scan, markTags_matchAt_op]
          simp only [RegExp.scan, List.flatMap_cons, segOut, List.nil_append]
          exact iht _
      | cl =>
          rw [render_cons_cl, RegExp.scan, markTags_matchAt_cl]
          simp only [RegExp.scan, List.flatMap_cons, segOut, List.nil_append]
          exact iht _

theorem marksBalanced_text (d : Nat) {c : Char} (hc : c ≠ '<') (cs : Str) :
    marksBalanced d (c :: cs) = marksBalanced d cs := by
  have h1 : litPrefix false "<mark>".toList (c :: cs) = false := by
    show (chEq false '<' c && _) = false
    simp [chEq, Ne.symm hc]
  have h2 : litPrefix false "</mark>".toList (c :: cs) = false := by
    show (chEq false '<' c && _) = false
    simp [chEq, Ne.symm hc]
  rw [marksBalanced, h1, h2]
  simp

theorem marksBalanced_op (d : Nat) (cs : Str) :
    marksBalanced d ('<' :: 'm' :: 'a' :: 'r' :: 'k' :: '>' :: cs) = marksBalanced (d + 1) cs := by
  have h1 : litPrefix false "<mark>".toList ('<' :: 'm' :: 'a' :: 'r' :: 'k' :: '>' :: cs)
      = true := rfl
  rw [marksBalanced, h1]
  simp only [if_true]
  rw [marksBalanced_text _ (by decide), marksBalanced_text _ (by decide),
    marksBalanced_text _ (by decide), marksBalanced_text _ (by decide),
    marksBalanced_text _ (by decide)]

theorem marksBalanced_cl (d : Nat) (cs : Str) :
    marksBalanced d ('<' :: '/' :: 'm' :: 'a' :: 'r' :: 'k' :: '>' :: cs)
      = (d != 0 && marksBalanced (d - 1) cs) := by
  have h1 : litPrefix false "<mark>".toList ('<' :: '/' :: 'm' :: 'a' :: 'r' :: 'k' :: '>' :: cs)
      = false := rfl
  have h2 : litPrefix false "</mark>".toList ('<' :: '/' :: 'm' :: 'a' :: 'r' :: 'k' :: '>' :: cs)
      = true := rfl
  rw [marksBalanced, h1, h2]
  simp only [if_true, Bool.false_eq_true, if_false]
  rw [marksBalanced_text _ (by decide), marksBalanced_text _ (by decide),
    marksBalanced_text _ (by decide), marksBalanced_text _ (by decide),
    marksBalanced_text _ (by decide), marksBalanced_text _ (by decide)]

/-- The balance of the tags of a tagged text, read off its pieces. -/
theorem marksBalanced_render (toks : List Tok) (hno : NoLt toks) :
    ∀ d, marksBalanced d (render toks) = tokBalanced d toks := by
  induction toks with
  | nil => intro d; rfl
  | cons tok t ih =>
      intro d
      have iht := ih (noLt_tail hno)
      cases tok with
      | ch c =>
          rw [render_cons_ch, marksBalanced_text d (hno c (List.mem_cons_self _ _)),
            tokBalanced_cons_ch, iht]
      | op => rw [render_cons_op, marksBalanced_op, iht]; rfl
      | cl => rw [render_cons_cl, marksBalanced_cl, iht]; rfl

theorem highlight_terms_ok : ∀ term ∈ HIGHLIGHT_TERMS, termOk term.toList = true := by
  decide

/-- The loop of `highlightTerms` on a tagged text. -/
theorem foldl_markTerm_tokens (terms : List String)
    (hterms : ∀ term ∈ terms, termOk term.toList = true) :
    ∀ toks : List Tok, NoLt toks →
      ∃ toks2 : List Tok, NoLt toks2
        ∧ terms.foldl markTerm (render toks) = render toks2
        ∧ chars toks2 = chars toks
        ∧ ∀ d, tokBalanced d toks2 = tokBalanced d toks := by
  induction terms with
  | nil => intro toks hno; exact ⟨toks, hno, rfl, rfl, fun _ => rfl⟩
  | cons term terms ih =>
      intro toks hno
      obtain ⟨t1, h1, h2, h3, h4⟩ :=
        scan_tokens (hterms term (List.mem_cons_self _ _)) toks.length toks none le_rfl hno
      obtain ⟨t2, k1, k2, k3, k4⟩ :=
        ih (fun q hq => hterms q (List.mem_cons_of_mem _ hq)) t1 h1
      refine ⟨t2, k1, ?_, k3.trans h3, fun d => (k4 d).trans (h4 d)⟩
      rw [List.foldl_cons, markTerm_eq, h2, k2]

theorem noLt_map_ch {s : Str} (h : ∀ c ∈ s, c ≠ '<') : NoLt (s.map Tok.ch) := by
  intro c hc
  obtain ⟨d, hd, e⟩ := List.mem_map.1 hc
  cases e
  exact h c hd

theorem render_text (s : Str) : render (s.map Tok.ch) = s := by
  have := render_map_ch s []
  simpa [render] using this

theorem chars_text (s : Str) : chars (s.map Tok.ch) = s := by
  have := chars_map_ch s []
  simpa [chars] using this

theorem tokBalanced_text (s : Str) : tokBalanced 0 (s.map Tok.ch) = true := by
  have := tokBalanced_map_ch 0 s []
  simpa [tokBalanced] using this

theorem highlightTerms_tokens (text : Str) :
    ∃ toks : List Tok, NoLt toks ∧ highlightTerms text = render toks
      ∧ chars toks = escapeHtml text ∧ tokBalanced 0 toks = true := by
  have hclean : ∀ c ∈ escapeHtml text, c ≠ '<' := fun c hc => (escapeHtml_clean text c hc).1
  have e : highlightTerms text = HIGHLIGHT_TERMS.foldl markTerm (escapeHtml text) := by
    unfold highlightTerms; rfl
  rw [e]
  generalize escapeHtml text = esc at hclean ⊢
  obtain ⟨toks, h1, h2, h3, h4⟩ :=
    foldl_markTerm_tokens HIGHLIGHT_TERMS highlight_terms_ok (esc.map Tok.ch)
      (noLt_map_ch hclean)
  rw [render_text] at h2
  rw [chars_text] at h3
  exact ⟨toks, h1, h2, h3, by rw [h4, tokBalanced_text]⟩

set_option maxRecDepth 100000 in
/-- C10: `highlightTerms` only adds `mark` tags: deleting every `<mark>` and `</mark>`
from its result gives `escapeHtml` of the text, and the tags of the result are
balanced, also where overlapping terms are wrapped twice, as in "high blood pressure". -/
theorem highlightTerms_only_marks (text : Str) :
    stripMarks (highlightTerms text) = escapeHtml text
      ∧ marksBalanced 0 (highlightTerms text) = true
      ∧ highlightTerms "high blood pressure".toList
          = "<mark>high <mark>blood pressure</mark></mark>".toList := by
  have h3 : highlightTerms "high blood pressure".toList
      = "<mark>high <mark>blood pressure</mark></mark>".toList := by decide
  obtain ⟨toks, hno, e, hc, hb⟩ := highlightTerms_tokens text
  rw [e]
  refine ⟨?_, ?_, h3⟩
  · rw [← hc]
    unfold stripMarks
    rw [replaceAll_eq]
    exact stripMarks_render toks hno none
  · rw [marksBalanced_render toks hno, hb]

end ClarityCare
